import Mathlib

/-!
# dependencyviz: import graph, label allocation and mermaid output

A shallow embedding of `main.go`.  The program loads the packages of one Go
module, records for every package the module-internal imports of its files in
`imports : map[string]map[string]bool`, and prints a mermaid flowchart: a header,
one line per edge, one line per labelled node.

Conventions of the embedding:

* Go strings are Lean `String`s; the functions of package `strings` that the
  program calls are defined on the character lists.
* A Go `map[string]V` is an association list `GoMap V` whose keys are kept
  distinct by `GoMap.assign`.  The order of the list has no meaning: every
  `for ... range m` of the program goes through a `RangeOrder`, which may visit
  the entries of each map in any order, as the Go runtime does.
* The result of `packages.Load` is the list of `Package` values; of a package only
  the fields read by `main` are kept, and of a syntax tree only its `ImportSpec`
  nodes, in the order `ast.Inspect` reaches them.  `pkg.Module` is taken to be
  present (the program dereferences it without a check).
* Standard output is the list of the strings written by the successive print
  calls.
* `Letters.current` is a Go `int`; it starts at 64 and grows by one per map
  entry, so it stays far below `2^63` and is modelled without wraparound.
* Go strings are byte sequences and `strings.Contains`, `strings.ReplaceAll` and
  `strings.Split` work on bytes.  On valid UTF-8 text, which package paths and
  Go source files are, a byte-level match is a character-level match, so the
  functions are defined on characters.
* The flag parsing and the two `log.Fatal` exits before line 63 are not part of
  the embedding: `main` below starts from the flag values and the loaded
  packages.
-/

namespace DependencyViz

/-! ## Package `strings` -/

namespace strings

/-- The character-level test behind `strings.Contains`: `substr` starts at some
position of the list. -/
def containsChars : List Char → List Char → Bool
  | [], substr => substr.isPrefixOf []
  | c :: t, substr => substr.isPrefixOf (c :: t) || containsChars t substr

/-- Go `strings.Contains(s, substr)`. -/
def Contains (s substr : String) : Bool :=
  containsChars s.data substr.data

/-- Left-to-right replacement of the non-overlapping occurrences of a non-empty
`old` by `new`.  The first argument counts the characters of a matched occurrence
that are still to be skipped. -/
def replaceChars (old new : List Char) : Nat → List Char → List Char
  | _, [] => []
  | k + 1, _ :: t => replaceChars old new k t
  | 0, c :: t =>
    if old.isPrefixOf (c :: t) then new ++ replaceChars old new (old.length - 1) t
    else c :: replaceChars old new 0 t

/-- Go `strings.ReplaceAll(s, old, new)`.  An empty `old` matches before every
character and at the end of the string. -/
def ReplaceAll (s old new : String) : String :=
  if old.data = [] then
    ⟨new.data ++ s.data.flatMap (fun c => c :: new.data)⟩
  else
    ⟨replaceChars old.data new.data 0 s.data⟩

/-- Splitting at the non-overlapping occurrences of a non-empty separator.  The
arguments are the number of separator characters still to be skipped, the piece
read so far (reversed) and the rest of the input. -/
def splitChars (sep : List Char) : Nat → List Char → List Char → List (List Char)
  | _, acc, [] => [acc.reverse]
  | k + 1, acc, _ :: t => splitChars sep k acc t
  | 0, acc, c :: t =>
    if sep.isPrefixOf (c :: t) then acc.reverse :: splitChars sep (sep.length - 1) [] t
    else splitChars sep 0 (c :: acc) t

/-- Go `strings.Split(s, sep)`.  An empty separator explodes the string into its
characters. -/
def Split (s sep : String) : List String :=
  if sep.data = [] then s.data.map String.singleton
  else (splitChars sep.data 0 [] s.data).map String.mk

end strings

/-! ## Go maps and their iteration order -/

/-- A Go `map[string]V` as an association list with distinct keys. -/
abbrev GoMap (V : Type) := List (String × V)

namespace GoMap

/-- The two-valued map read `v, ok := m[k]`. -/
def lookup {V : Type} : GoMap V → String → Option V
  | [], _ => none
  | (k', v) :: t, k => if k' = k then some v else lookup t k

/-- The map write `m[k] = v`: overwrite the entry of `k` or add one. -/
def assign {V : Type} : GoMap V → String → V → GoMap V
  | [], k, v => [(k, v)]
  | (k', v') :: t, k, v => if k' = k then (k, v) :: t else (k', v') :: assign t k v

end GoMap

/-- The iteration orders of the three `range` loops over maps in `main`.  Go
leaves the order unspecified; each loop visits every entry exactly once. -/
structure RangeOrder where
  /-- order of `for importer, imports := range imports` -/
  importers : GoMap (GoMap Bool) → List (String × GoMap Bool)
  /-- order of `for importee := range imports`, for the given importer -/
  importees : String → GoMap Bool → List (String × Bool)
  /-- order of `for val, key := range letters.Keys` -/
  keys : GoMap String → List (String × String)
  importers_perm : ∀ m, (importers m).Perm m
  importees_perm : ∀ k m, (importees k m).Perm m
  keys_perm : ∀ m, (keys m).Perm m

/-- The iteration order that follows the association lists. -/
def RangeOrder.stored : RangeOrder where
  importers := fun m => m
  importees := fun _ m => m
  keys := fun m => m
  importers_perm := fun m => List.Perm.refl m
  importees_perm := fun _ m => List.Perm.refl m
  keys_perm := fun m => List.Perm.refl m

/-- The iteration order that runs through every map backwards. -/
def RangeOrder.reversed : RangeOrder where
  importers := fun m => m.reverse
  importees := fun _ m => m.reverse
  keys := fun m => m.reverse
  importers_perm := fun m => List.reverse_perm m
  importees_perm := fun _ m => List.reverse_perm m
  keys_perm := fun m => List.reverse_perm m

/-! ## The loaded packages -/

/-- Go `ast.BasicLit`: of an import path literal only the source text `Value`,
quotes included. -/
structure BasicLit where
  Value : String
  deriving DecidableEq

/-- Go `ast.ImportSpec`. -/
structure ImportSpec where
  Path : BasicLit
  deriving DecidableEq

/-- Go `packages.Module`. -/
structure Module where
  Path : String
  deriving DecidableEq

/-- Go `packages.Package`.  `Syntax` holds, for each file of the package, the
`ImportSpec` nodes that `ast.Inspect` visits, in visiting order. -/
structure Package where
  PkgPath : String
  Name : String
  Module : Module
  Syntax : List (List ImportSpec)
  deriving DecidableEq

/-! ## `ignorePgk` -/

/-- Go `ignorePgk`, with the global rule list `ignore` as first argument. -/
def ignorePgk : List String → String → Bool
  | [], _ => false
  | i :: rest, pkg =>
    if i ≠ "" ∧ strings.Contains pkg i = true then true else ignorePgk rest pkg

/-! ## `Letters` -/

/-- Go conversion `string(i)` of an `int`: the UTF-8 encoding of the code point
`i`, and U+FFFD for a value that is no valid code point. -/
def intstring (i : Int) : String :=
  if 0 ≤ i ∧ i.toNat.isValidChar then String.singleton (Char.ofNat i.toNat)
  else String.singleton (Char.ofNat 0xFFFD)

/-- Go `Letters`. -/
structure Letters where
  current : Int
  Keys : GoMap String
  deriving DecidableEq

/-- Go `NewLetters`. -/
def NewLetters : Letters :=
  { current := 64, Keys := [] }

/-- Go `(*Letters).next`: the returned string and the updated receiver. -/
def Letters.next (l : Letters) : String × Letters :=
  let l := { l with current := l.current + 1 }
  (intstring l.current, l)

/-- Go `(*Letters).Key`: the returned label and the updated receiver. -/
def Letters.Key (l : Letters) (val : String) : String × Letters :=
  match GoMap.lookup l.Keys val with
  | some key => (key, l)
  | none =>
    let (key, l) := l.next
    (key, { l with Keys := GoMap.assign l.Keys val key })

/-! ## `main` -/

/-- The callback of `ast.Inspect` at an `ImportSpec` node (lines 86 to 96), as a
function of the map `imports`.  `pkgPath` is the node key of the package being
processed; its entry was written at line 76, so the inner map is always found. -/
def inspectImport (ignore : List String) (ignorePrefix : String) (pkg : Package)
    (pkgPath : String) (imports : GoMap (GoMap Bool)) (is : ImportSpec) :
    GoMap (GoMap Bool) :=
  let importPath := strings.ReplaceAll is.Path.Value "\"" ""
  if ignorePgk ignore importPath then imports
  else
    let importPath := strings.ReplaceAll importPath ignorePrefix ""
    if strings.Contains is.Path.Value pkg.Module.Path then
      match GoMap.lookup imports pkgPath with
      | some inner => GoMap.assign imports pkgPath (GoMap.assign inner importPath true)
      | none => imports
    else imports

/-- The node key computed at lines 70 to 74. -/
def pkgKey (ignorePrefix : String) (pkg : Package) : String :=
  let pkgPath := strings.ReplaceAll pkg.PkgPath ignorePrefix ""
  if pkg.Name = "main" then pkgPath ++ "/MAIN" else pkgPath

/-- One iteration of `for _, pkg := range pkgs` (lines 65 to 101). -/
def loadPkg (ignore : List String) (ignorePrefix : String)
    (imports : GoMap (GoMap Bool)) (pkg : Package) : GoMap (GoMap Bool) :=
  if ignorePgk ignore pkg.PkgPath then imports
  else
    let pkgPath := pkgKey ignorePrefix pkg
    let imports := GoMap.assign imports pkgPath []
    pkg.Syntax.foldl
      (fun imports file => file.foldl (inspectImport ignore ignorePrefix pkg pkgPath) imports)
      imports

/-- The map `imports` after the package loop (lines 63 to 101). -/
def buildImports (ignore : List String) (ignorePrefix : String) (pkgs : List Package) :
    GoMap (GoMap Bool) :=
  pkgs.foldl (loadPkg ignore ignorePrefix) []

/-- The text written by `fmt.Printf("\t%s --> %s\n", a, b)`. -/
def edgeLine (a b : String) : String :=
  "\t" ++ a ++ " --> " ++ b ++ "\n"

/-- The text written by `fmt.Printf("\t%s[%v]\n", key, val)`. -/
def nodeLine (key val : String) : String :=
  "\t" ++ key ++ "[" ++ val ++ "]\n"

/-- The body of the inner edge loop (lines 108 to 112): `letters.Key(importee)` is
evaluated before `letters.Key(importer)`. -/
def printEdge (importer : String) (st : Letters × List String) (importee : String) :
    Letters × List String :=
  let (a, l) := st.1.Key importee
  let (b, l) := l.Key importer
  (l, st.2 ++ [edgeLine a b])

/-- The edge loops (lines 106 to 114). -/
def printEdges (σ : RangeOrder) (imports : GoMap (GoMap Bool))
    (st : Letters × List String) : Letters × List String :=
  (σ.importers imports).foldl
    (fun st entry =>
      (σ.importees entry.1 entry.2).foldl
        (fun st inner => printEdge entry.1 st inner.1) st)
    st

/-- The node loop (lines 116 to 118). -/
def printNodes (σ : RangeOrder) (letters : Letters) (out : List String) : List String :=
  (σ.keys letters.Keys).foldl (fun out entry => out ++ [nodeLine entry.2 entry.1]) out

/-- Lines 103 to 118: the output for a given map `imports`. -/
def printGraph (σ : RangeOrder) (imports : GoMap (GoMap Bool)) : List String :=
  let letters := NewLetters
  let out := ["flowchart BT\n"]
  let st := printEdges σ imports (letters, out)
  printNodes σ st.1 st.2

/-- Lines 63 to 118 of `main`, for a given rule list `ignore`. -/
def mainWith (σ : RangeOrder) (ignore : List String) (ignorePrefix : String)
    (pkgs : List Package) : List String :=
  printGraph σ (buildImports ignore ignorePrefix pkgs)

/-- Go `main` after a successful `packages.Load`: `ignoreString` and
`ignorePrefix` are the values of the flags `-ignore` and `-ignorePrefix`, `pkgs`
the loaded packages. -/
def main (σ : RangeOrder) (ignoreString ignorePrefix : String) (pkgs : List Package) :
    List String :=
  mainWith σ (strings.Split ignoreString ",") ignorePrefix pkgs

/-! ## Sample inputs -/

/-- A package outside `package main`, one file, module `example.com/app`. -/
def samplePkg (path : String) (imps : List String) : Package :=
  { PkgPath := path, Name := "p", Module := ⟨"example.com/app"⟩,
    Syntax := [imps.map (fun v => ⟨⟨v⟩⟩)] }

/-- The two packages of the example scenario: `a` imports `b`. -/
def scenarioPkgs : List Package :=
  [samplePkg "example.com/app/a" ["\"example.com/app/b\""],
   samplePkg "example.com/app/b" []]

/-! ## Reading the graph and the output -/

/-- The import path that lines 86 and 92 derive from an `ImportSpec`: quotes
removed, then `ignorePrefix` removed. -/
def importKey (ignorePrefix : String) (is : ImportSpec) : String :=
  strings.ReplaceAll (strings.ReplaceAll is.Path.Value "\"" "") ignorePrefix ""

/-- The two tests an import has to pass to be recorded: line 88 (no exclusion
rule matches the unquoted path) and line 94 (the literal contains the module
path of the importing package). -/
def survives (ignore : List String) (pkg : Package) (is : ImportSpec) : Bool :=
  !ignorePgk ignore (strings.ReplaceAll is.Path.Value "\"" "") &&
    strings.Contains is.Path.Value pkg.Module.Path

/-- The effect of the `ast.Inspect` callback on the inner map of the package being
processed. -/
def addImport (ignore : List String) (ignorePrefix : String) (pkg : Package)
    (inner : GoMap Bool) (is : ImportSpec) : GoMap Bool :=
  if survives ignore pkg is then GoMap.assign inner (importKey ignorePrefix is) true
  else inner

/-- The inner map that the file loop builds for one package, from the empty
map. -/
def importeesOf (ignore : List String) (ignorePrefix : String) (pkg : Package) : GoMap Bool :=
  pkg.Syntax.flatten.foldl (addImport ignore ignorePrefix pkg) []

/-- The graph has the edge `importer -> importee`: the key `importee` is present in
`imports[importer]`. -/
def hasEdge (imports : GoMap (GoMap Bool)) (importer importee : String) : Bool :=
  match GoMap.lookup imports importer with
  | some inner => (GoMap.lookup inner importee).isSome
  | none => false

/-- The pairs (importer, importee) in the order in which the edge loops of lines
106 to 114 visit them. -/
def edgeSeq (σ : RangeOrder) (imports : GoMap (GoMap Bool)) : List (String × String) :=
  (σ.importers imports).flatMap
    (fun entry => (σ.importees entry.1 entry.2).map (fun inner => (entry.1, inner.1)))

/-- The value of `letters` when the edge loops are done. -/
def finalLetters (σ : RangeOrder) (imports : GoMap (GoMap Bool)) : Letters :=
  (printEdges σ imports (NewLetters, ["flowchart BT\n"])).1

/-- The entries (node key, label) in the order in which the node loop of lines 116
to 118 visits them. -/
def nodeDecls (σ : RangeOrder) (imports : GoMap (GoMap Bool)) : List (String × String) :=
  σ.keys (finalLetters σ imports).Keys

/-- The label that `letters.Keys` holds for a node key after the edge loops. -/
def labelOf (σ : RangeOrder) (imports : GoMap (GoMap Bool)) (k : String) : String :=
  (GoMap.lookup (finalLetters σ imports).Keys k).getD ""

/-- The arguments of the successive `letters.Key` calls of the edge loops. -/
def keyArgs (seq : List (String × String)) : List String :=
  seq.flatMap (fun p => [p.2, p.1])

/-- The labels returned by a sequence of `Letters.Key` calls, and the final
state. -/
def Letters.keyCalls : Letters → List String → List String × Letters
  | l, [] => ([], l)
  | l, val :: vals =>
    let r := l.Key val
    let rs := Letters.keyCalls r.2 vals
    (r.1 :: rs.1, rs.2)

/-- The code point of a one-character string (0 for any other string). -/
def codePoint (s : String) : Nat :=
  match s.data with
  | [c] => c.toNat
  | _ => 0

/-- The node key with index `i` of a family of pairwise distinct keys. -/
def distinctKey (i : Nat) : String :=
  String.mk (List.replicate i 'a')

/-- The first `n` keys of the family `distinctKey`. -/
def distinctKeys (n : Nat) : List String :=
  (List.range n).map distinctKey

/-- The shape of every `Letters` value that `Key` calls produce from
`NewLetters`: the counter is 64 plus the number of entries, the entry with index
`i` carries the label `string(65 + i)`, and no node key has two entries. -/
structure Letters.WF (l : Letters) : Prop where
  current_eq : l.current = 64 + (l.Keys.length : Int)
  labels_eq : l.Keys.map Prod.snd =
    (List.range l.Keys.length).map (fun (i : Nat) => intstring (65 + (i : Int)))
  keys_nodup : (l.Keys.map Prod.fst).Nodup

/-- Three packages of module `example.com/app`, two of which get the same node key
when `-ignorePrefix internal/` is given: `internal/a` (which imports `b`) and
`a` (which imports nothing, and is processed later). -/
def collidingPkgs : List Package :=
  [samplePkg "example.com/app/internal/a" ["\"example.com/app/b\""],
   samplePkg "example.com/app/a" [],
   samplePkg "example.com/app/b" []]

/-- The import literal `"m/a...a"` with `i + 1` letters `a`, quotes included. -/
def wideImport (i : Nat) : ImportSpec :=
  ⟨⟨String.mk ('"' :: 'm' :: '/' :: (List.replicate (i + 1) 'a' ++ ['"']))⟩⟩

/-- The import path `m/a...a` with `i + 1` letters `a`. -/
def wideKey (i : Nat) : String :=
  String.mk ('m' :: '/' :: List.replicate (i + 1) 'a')

/-- A package `m/p` of module `m` whose single file imports the `n` packages
`m/a`, `m/aa`, and so on. -/
def widePkg (n : Nat) : Package :=
  { PkgPath := "m/p", Name := "p", Module := ⟨"m"⟩,
    Syntax := [(List.range n).map wideImport] }

/-! ## The prefix-strip rule as the specification words it -/

/-- The list `s` with only the first occurrence of `old` removed.  This follows the
wording of the specification ("the first occurrence of this string removed"), not
the program, and is what Go `strings.Replace(s, old, "", 1)` computes. -/
def removeFirstChars (old : List Char) : List Char → List Char
  | [] => []
  | c :: t =>
    if old.isPrefixOf (c :: t) then (c :: t).drop old.length
    else c :: removeFirstChars old t

/-- The string `s` with only the first occurrence of `old` removed (the
specification's wording of the prefix-strip rule). -/
def removeFirst (s old : String) : String :=
  ⟨removeFirstChars old.data s.data⟩

/-- A `package main` of module `example.com/app`, one file. -/
def mainPkg (path : String) (imps : List String) : Package :=
  { PkgPath := path, Name := "main", Module := ⟨"example.com/app"⟩,
    Syntax := [imps.map (fun v => ⟨⟨v⟩⟩)] }

/-! ## The orientation keyword of a mermaid header -/

/-- The four orientations of a mermaid flowchart. -/
inductive Direction where
  | topToBottom
  | bottomToTop
  | leftToRight
  | rightToLeft
  deriving DecidableEq

/-- The orientation that a header line `flowchart <keyword>` declares.  Mermaid's
keywords are `TB` and `TD` for top to bottom, `BT` for bottom to top, `LR` for
left to right and `RL` for right to left. -/
def headerDirection (line : String) : Option Direction :=
  if line = "flowchart TB\n" ∨ line = "flowchart TD\n" then some Direction.topToBottom
  else if line = "flowchart BT\n" then some Direction.bottomToTop
  else if line = "flowchart LR\n" then some Direction.leftToRight
  else if line = "flowchart RL\n" then some Direction.rightToLeft
  else none

/-- Two packages that get the same node key when `-ignorePrefix internal/` is
given; the first one, `internal/a`, imports itself. -/
def selfImportPkgs : List Package :=
  [samplePkg "example.com/app/internal/a" ["\"example.com/app/internal/a\""],
   samplePkg "example.com/app/a" []]

/-! ## Facts about package `strings` -/

theorem containsChars_iff (s substr : List Char) :
    strings.containsChars s substr = true ↔ substr <:+: s := by
  induction s with
  | nil =>
    cases substr <;> simp [strings.containsChars, List.isPrefixOf]
  | cons c t ih =>
    simp only [strings.containsChars, Bool.or_eq_true, ih, List.infix_cons_iff,
      List.isPrefixOf_iff_prefix]

theorem Contains_iff (s substr : String) :
    strings.Contains s substr = true ↔ substr.data <:+: s.data :=
  containsChars_iff s.data substr.data

theorem replaceChars_single (c : Char) (s : List Char) :
    strings.replaceChars [c] [] 0 s = s.filter (fun x => x != c) := by
  induction s with
  | nil => rfl
  | cons x t ih =>
    by_cases h : c = x
    · subst h
      simp [strings.replaceChars, List.isPrefixOf, ih]
    · have h2 : x ≠ c := fun h3 => h h3.symm
      simp [strings.replaceChars, List.isPrefixOf, ih, h, h2]

theorem ReplaceAll_empty (s : String) : strings.ReplaceAll s "" "" = s := by
  simp [strings.ReplaceAll]

theorem ignorePgk_eq_true_iff (ignore : List String) (pkg : String) :
    ignorePgk ignore pkg = true ↔ ∃ i ∈ ignore, i ≠ "" ∧ i.data <:+: pkg.data := by
  induction ignore with
  | nil => simp [ignorePgk]
  | cons i rest ih =>
    unfold ignorePgk
    by_cases h : i ≠ "" ∧ strings.Contains pkg i = true
    · rw [if_pos h]
      simp only [true_iff]
      exact ⟨i, List.mem_cons_self _ _, h.1, (Contains_iff _ _).1 h.2⟩
    · rw [if_neg h, ih]
      constructor
      · rintro ⟨j, hj, hne, hin⟩
        exact ⟨j, List.mem_cons_of_mem _ hj, hne, hin⟩
      · rintro ⟨j, hj, hne, hin⟩
        rcases List.mem_cons.1 hj with rfl | hj
        · exact absurd ⟨hne, (Contains_iff _ _).2 hin⟩ h
        · exact ⟨j, hj, hne, hin⟩

theorem ignorePgk_eq_false_iff (ignore : List String) (pkg : String) :
    ignorePgk ignore pkg = false ↔ ¬ ∃ i ∈ ignore, i ≠ "" ∧ i.data <:+: pkg.data := by
  rw [← ignorePgk_eq_true_iff]; simp

theorem splitChars_commas (n : Nat) (acc : List Char) :
    strings.splitChars [','] 0 acc (List.replicate n ',')
      = acc.reverse :: List.replicate n [] := by
  induction n generalizing acc with
  | zero => rfl
  | succ n ih =>
    rw [List.replicate_succ, strings.splitChars, if_pos (by simp [List.isPrefixOf])]
    simp only [List.length_singleton, Nat.sub_self]
    rw [ih, List.replicate_succ]
    rfl

theorem Split_commas (n : Nat) :
    strings.Split (String.mk (List.replicate n ',')) "," = List.replicate (n + 1) "" := by
  unfold strings.Split
  have h : ("," : String).data = [','] := rfl
  rw [h, if_neg (by simp), splitChars_commas]
  simp only [List.reverse_nil, List.map_cons, List.map_replicate, List.replicate_succ]

theorem ignorePgk_replicate_empty (n : Nat) (pkg : String) :
    ignorePgk (List.replicate n "") pkg = false := by
  rw [ignorePgk_eq_false_iff]
  rintro ⟨i, hi, hne, -⟩
  exact hne (List.eq_of_mem_replicate hi)

/-- C9: `ignorePgk` answers true exactly when some rule of the list is non-empty
and occurs in the path as a substring.  The default `-ignore ""` splits into the
rule list `[""]`, which excludes nothing; an `-ignore` value made of commas only
splits into empty rules, which exclude nothing; and the empty entries of any rule
list are inert. -/
theorem ignorePgk_substring_rule (ignore : List String) (pkg : String) (n : Nat) :
    (ignorePgk ignore pkg = true ↔ ∃ i ∈ ignore, i ≠ "" ∧ i.data <:+: pkg.data)
    ∧ strings.Split "" "," = [""]
    ∧ ignorePgk (strings.Split "" ",") pkg = false
    ∧ strings.Split (String.mk (List.replicate n ',')) "," = List.replicate (n + 1) ""
    ∧ ignorePgk (strings.Split (String.mk (List.replicate n ',')) ",") pkg = false
    ∧ ignorePgk (ignore.filter (fun i => i ≠ "")) pkg = ignorePgk ignore pkg := by
  refine ⟨ignorePgk_eq_true_iff ignore pkg, Split_commas 0, ?_, Split_commas n, ?_, ?_⟩
  · rw [show strings.Split "" "," = List.replicate (0 + 1) "" from Split_commas 0]
    exact ignorePgk_replicate_empty _ _
  · rw [Split_commas]
    exact ignorePgk_replicate_empty _ _
  · rw [Bool.eq_iff_iff, ignorePgk_eq_true_iff, ignorePgk_eq_true_iff]
    constructor
    · rintro ⟨i, hi, hne, hin⟩
      exact ⟨i, (List.mem_filter.1 hi).1, hne, hin⟩
    · rintro ⟨i, hi, hne, hin⟩
      exact ⟨i, List.mem_filter.2 ⟨hi, by simpa using hne⟩, hne, hin⟩

/-! ## Facts about Go maps -/

namespace GoMap

variable {V : Type}

theorem lookup_eq_none_iff (m : GoMap V) (k : String) :
    lookup m k = none ↔ k ∉ m.map Prod.fst := by
  induction m with
  | nil => simp [lookup]
  | cons p t ih =>
    obtain ⟨k', v⟩ := p
    by_cases h : k' = k
    · simp [lookup, h]
    · simp [lookup, h, ih, Ne.symm h]

theorem lookup_isSome_iff (m : GoMap V) (k : String) :
    (lookup m k).isSome = true ↔ k ∈ m.map Prod.fst := by
  rw [← not_iff_not, ← lookup_eq_none_iff]
  cases lookup m k <;> simp

theorem mem_of_lookup {m : GoMap V} {k : String} {v : V} (h : lookup m k = some v) :
    (k, v) ∈ m := by
  induction m with
  | nil => simp [lookup] at h
  | cons p t ih =>
    obtain ⟨k', v'⟩ := p
    by_cases hk : k' = k
    · simp [lookup, hk] at h
      simp [hk, h]
    · simp [lookup, hk] at h
      exact List.mem_cons_of_mem _ (ih h)

theorem lookup_of_mem {m : GoMap V} {k : String} {v : V} (hm : (m.map Prod.fst).Nodup)
    (h : (k, v) ∈ m) : lookup m k = some v := by
  induction m with
  | nil => simp at h
  | cons p t ih =>
    obtain ⟨k', v'⟩ := p
    simp only [List.map_cons, List.nodup_cons] at hm
    rcases List.mem_cons.1 h with h | h
    · cases h
      simp [lookup]
    · have hk : k' ≠ k := by
        rintro rfl
        exact hm.1 (List.mem_map.2 ⟨(k', v), h, rfl⟩)
      simp [lookup, hk, ih hm.2 h]

theorem lookup_assign (m : GoMap V) (k : String) (v : V) (k' : String) :
    lookup (assign m k v) k' = if k = k' then some v else lookup m k' := by
  induction m with
  | nil => simp [assign, lookup]
  | cons p t ih =>
    obtain ⟨k0, v0⟩ := p
    by_cases h0 : k0 = k
    · subst h0
      by_cases h1 : k0 = k' <;> simp [assign, lookup, h1]
    · by_cases h1 : k = k'
      · subst h1
        simp [assign, lookup, h0, ih]
      · by_cases h2 : k0 = k'
        · subst h2
          simp [assign, lookup, h0, h1]
        · simp [assign, lookup, h0, h1, h2, ih]

theorem assign_of_not_mem (m : GoMap V) (k : String) (v : V) (h : k ∉ m.map Prod.fst) :
    assign m k v = m ++ [(k, v)] := by
  induction m with
  | nil => simp [assign]
  | cons p t ih =>
    obtain ⟨k0, v0⟩ := p
    simp only [List.map_cons, List.mem_cons, not_or] at h
    simp [assign, Ne.symm h.1, ih h.2]

theorem keys_assign_of_mem (m : GoMap V) (k : String) (v : V) (h : k ∈ m.map Prod.fst) :
    (assign m k v).map Prod.fst = m.map Prod.fst := by
  induction m with
  | nil => simp at h
  | cons p t ih =>
    obtain ⟨k0, v0⟩ := p
    by_cases h0 : k0 = k
    · simp [assign, h0]
    · have ht : k ∈ t.map Prod.fst := by
        simp only [List.map_cons, List.mem_cons] at h
        rcases h with h | h
        · exact absurd h.symm h0
        · exact h
      simp [assign, h0, ih ht]

theorem mem_keys_assign (m : GoMap V) (k : String) (v : V) (k' : String) :
    k' ∈ (assign m k v).map Prod.fst ↔ k' = k ∨ k' ∈ m.map Prod.fst := by
  rw [← lookup_isSome_iff, lookup_assign, ← lookup_isSome_iff]
  by_cases h : k = k'
  · simp [h]
  · simp [h, Ne.symm h]

theorem nodup_keys_assign (m : GoMap V) (k : String) (v : V) (h : (m.map Prod.fst).Nodup) :
    ((assign m k v).map Prod.fst).Nodup := by
  by_cases hk : k ∈ m.map Prod.fst
  · rw [keys_assign_of_mem m k v hk]
    exact h
  · rw [assign_of_not_mem m k v hk, List.map_append]
    simp only [List.map_cons, List.map_nil]
    exact List.Nodup.append h (List.nodup_singleton k) (by simpa using hk)

end GoMap

/-! ## Facts about `Letters` -/

theorem toNat_ofNat_valid (n : Nat) (h : n.isValidChar) : (Char.ofNat n).toNat = n := by
  simp only [Char.ofNat, h, Char.ofNatAux, Char.toNat, dif_pos]
  rfl

theorem codePoint_singleton (c : Char) : codePoint (String.singleton c) = c.toNat := by
  simp [codePoint, String.singleton]

theorem codePoint_intstring (i : Int) :
    codePoint (intstring i) = if 0 ≤ i ∧ i.toNat.isValidChar then i.toNat else 65533 := by
  unfold intstring
  by_cases h : 0 ≤ i ∧ i.toNat.isValidChar
  · rw [if_pos h, if_pos h, codePoint_singleton, toNat_ofNat_valid _ h.2]
  · rw [if_neg h, if_neg h, codePoint_singleton]
    decide

theorem codePoint_intstring_low (i : Int) (h0 : 0 ≤ i) (h1 : i < 55296) :
    codePoint (intstring i) = i.toNat := by
  rw [codePoint_intstring, if_pos]
  exact ⟨h0, Or.inl (by omega)⟩

theorem intstring_low (i : Int) (h0 : 0 ≤ i) (h1 : i < 55296) :
    intstring i = String.singleton (Char.ofNat i.toNat) := by
  unfold intstring
  rw [if_pos]
  exact ⟨h0, Or.inl (by omega)⟩

theorem intstring_surrogate (i : Int) (h0 : 55296 ≤ i) (h1 : i ≤ 57343) :
    intstring i = String.singleton (Char.ofNat 0xFFFD) := by
  unfold intstring
  rw [if_neg]
  rintro ⟨-, h | h⟩
  · omega
  · have := h.1
    omega

namespace Letters

theorem Key_of_lookup_some {l : Letters} {val key : String}
    (h : GoMap.lookup l.Keys val = some key) : l.Key val = (key, l) := by
  simp [Letters.Key, h]

theorem Key_of_lookup_none {l : Letters} {val : String}
    (h : GoMap.lookup l.Keys val = none) :
    l.Key val = (intstring (l.current + 1),
      { current := l.current + 1,
        Keys := GoMap.assign l.Keys val (intstring (l.current + 1)) }) := by
  simp [Letters.Key, h, Letters.next]

theorem Key_keys_of_lookup_none {l : Letters} {val : String}
    (h : GoMap.lookup l.Keys val = none) :
    (l.Key val).2.Keys = l.Keys ++ [(val, intstring (l.current + 1))] := by
  rw [Key_of_lookup_none h]
  exact GoMap.assign_of_not_mem _ _ _ ((GoMap.lookup_eq_none_iff _ _).1 h)

theorem WF_NewLetters : NewLetters.WF :=
  ⟨by simp [NewLetters], by simp [NewLetters], by simp [NewLetters]⟩

theorem WF_Key {l : Letters} (h : l.WF) (val : String) : (l.Key val).2.WF := by
  cases hl : GoMap.lookup l.Keys val with
  | some key => rw [Key_of_lookup_some hl]; exact h
  | none =>
    have hk := Key_keys_of_lookup_none hl
    have hc : (l.Key val).2.current = l.current + 1 := by rw [Key_of_lookup_none hl]
    refine ⟨?_, ?_, ?_⟩
    · rw [hc, hk, h.current_eq]
      simp only [List.length_append, List.length_singleton, Nat.cast_add, Nat.cast_one]
      ring
    · rw [hk, List.map_append, h.labels_eq, List.length_append, List.length_singleton,
        List.range_succ, List.map_append, h.current_eq]
      simp only [List.map_cons, List.map_nil]
      congr 3
      ring
    · rw [hk, List.map_append]
      simp only [List.map_cons, List.map_nil]
      exact List.Nodup.append h.keys_nodup (List.nodup_singleton val)
        (by simpa using (GoMap.lookup_eq_none_iff _ _).1 hl)

theorem lookup_Key_self (l : Letters) (val : String) :
    GoMap.lookup (l.Key val).2.Keys val = some (l.Key val).1 := by
  cases hl : GoMap.lookup l.Keys val with
  | some key => rw [Key_of_lookup_some hl]; exact hl
  | none => rw [Key_of_lookup_none hl]; simp [GoMap.lookup_assign]

theorem lookup_Key_mono {l : Letters} {v key : String} (h : GoMap.lookup l.Keys v = some key)
    (w : String) : GoMap.lookup (l.Key w).2.Keys v = some key := by
  cases hl : GoMap.lookup l.Keys w with
  | some key' => rw [Key_of_lookup_some hl]; exact h
  | none =>
    rw [Key_of_lookup_none hl]
    have hne : w ≠ v := by
      rintro rfl
      rw [hl] at h
      cases h
    simp [GoMap.lookup_assign, hne, h]

theorem mem_keys_Key (l : Letters) (val k : String) :
    k ∈ (l.Key val).2.Keys.map Prod.fst ↔ k = val ∨ k ∈ l.Keys.map Prod.fst := by
  cases hl : GoMap.lookup l.Keys val with
  | some key =>
    rw [Key_of_lookup_some hl]
    constructor
    · exact Or.inr
    · rintro (rfl | h)
      · exact (GoMap.lookup_isSome_iff _ _).1 (by simp [hl])
      · exact h
  | none =>
    rw [Key_of_lookup_none hl]
    exact GoMap.mem_keys_assign _ _ _ _

@[simp] theorem keyCalls_nil (l : Letters) : keyCalls l [] = ([], l) := rfl

@[simp] theorem keyCalls_cons (l : Letters) (val : String) (vals : List String) :
    keyCalls l (val :: vals) =
      ((l.Key val).1 :: (keyCalls (l.Key val).2 vals).1, (keyCalls (l.Key val).2 vals).2) := rfl

theorem keyCalls_append (l : Letters) (xs ys : List String) :
    keyCalls l (xs ++ ys) =
      ((keyCalls l xs).1 ++ (keyCalls (keyCalls l xs).2 ys).1,
        (keyCalls (keyCalls l xs).2 ys).2) := by
  induction xs generalizing l with
  | nil => simp
  | cons x xs ih => simp [ih]

theorem length_keyCalls (l : Letters) (vals : List String) :
    (keyCalls l vals).1.length = vals.length := by
  induction vals generalizing l with
  | nil => simp
  | cons x xs ih => simp [ih]

theorem WF_keyCalls {l : Letters} (h : l.WF) (vals : List String) : (keyCalls l vals).2.WF := by
  induction vals generalizing l with
  | nil => exact h
  | cons x xs ih => exact ih (WF_Key h x)

theorem lookup_keyCalls_mono {l : Letters} {v key : String}
    (h : GoMap.lookup l.Keys v = some key) (vals : List String) :
    GoMap.lookup (keyCalls l vals).2.Keys v = some key := by
  induction vals generalizing l with
  | nil => exact h
  | cons x xs ih => exact ih (lookup_Key_mono h x)

theorem mem_keys_keyCalls (l : Letters) (vals : List String) (k : String) :
    k ∈ (keyCalls l vals).2.Keys.map Prod.fst ↔ k ∈ vals ∨ k ∈ l.Keys.map Prod.fst := by
  induction vals generalizing l with
  | nil => simp
  | cons x xs ih =>
    rw [keyCalls_cons, ih, mem_keys_Key, List.mem_cons]
    tauto

/-- Every label returned during a sequence of calls is the one the final map
stores for the requested key. -/
theorem keyCalls_labels (l : Letters) (vals : List String) :
    (keyCalls l vals).1 =
      vals.map (fun v => (GoMap.lookup (keyCalls l vals).2.Keys v).getD "") := by
  induction vals generalizing l with
  | nil => simp
  | cons x xs ih =>
    rw [keyCalls_cons, List.map_cons]
    simp only
    rw [← ih, lookup_keyCalls_mono (lookup_Key_self l x)]
    rfl

theorem length_eq_dedup_length {l₁ l₂ : List String} (h₁ : l₁.Nodup)
    (h : ∀ a, a ∈ l₁ ↔ a ∈ l₂) : l₁.length = l₂.dedup.length := by
  apply List.Perm.length_eq
  rw [List.perm_ext_iff_of_nodup h₁ (List.nodup_dedup l₂)]
  intro a
  rw [h a, List.mem_dedup]

theorem length_keys_keyCalls (vals : List String) :
    (keyCalls NewLetters vals).2.Keys.length = vals.dedup.length := by
  have hwf := WF_keyCalls WF_NewLetters vals
  rw [← List.length_map (keyCalls NewLetters vals).2.Keys Prod.fst]
  apply length_eq_dedup_length hwf.keys_nodup
  intro a
  rw [mem_keys_keyCalls]
  simp [NewLetters]

theorem current_keyCalls (vals : List String) :
    (keyCalls NewLetters vals).2.current = 64 + (vals.dedup.length : Int) := by
  rw [(WF_keyCalls WF_NewLetters vals).current_eq, length_keys_keyCalls]

/-- The label handed to a key that none of the earlier calls requested. -/
theorem Key_new_label (pre : List String) (val : String) (h : val ∉ pre) :
    ((keyCalls NewLetters pre).2.Key val).1 = intstring (65 + (pre.dedup.length : Int)) := by
  have hn : GoMap.lookup (keyCalls NewLetters pre).2.Keys val = none := by
    rw [GoMap.lookup_eq_none_iff, mem_keys_keyCalls]
    simp [NewLetters, h]
  rw [Key_of_lookup_none hn, current_keyCalls]
  simp only
  congr 1
  ring

/-- Every label returned by a sequence of calls from `NewLetters` is
`string(65 + i)` for an index `i` below the number of distinct keys. -/
theorem keyCalls_label_form (vals : List String) (lab : String)
    (h : lab ∈ (keyCalls NewLetters vals).1) :
    ∃ i : Nat, i < vals.dedup.length ∧ lab = intstring (65 + (i : Int)) := by
  rw [keyCalls_labels, List.mem_map] at h
  obtain ⟨v, hv, rfl⟩ := h
  have hwf := WF_keyCalls WF_NewLetters vals
  have hmem : v ∈ (keyCalls NewLetters vals).2.Keys.map Prod.fst := by
    rw [mem_keys_keyCalls]; exact Or.inl hv
  cases hl : GoMap.lookup (keyCalls NewLetters vals).2.Keys v with
  | none => exact absurd hmem ((GoMap.lookup_eq_none_iff _ _).1 hl)
  | some key =>
    have h2 : key ∈ (keyCalls NewLetters vals).2.Keys.map Prod.snd :=
      List.mem_map.2 ⟨(v, key), GoMap.mem_of_lookup hl, rfl⟩
    rw [hwf.labels_eq, List.mem_map] at h2
    obtain ⟨i, hi, rfl⟩ := h2
    rw [List.mem_range, length_keys_keyCalls] at hi
    exact ⟨i, hi, rfl⟩

end Letters

/-! ## A family of distinct node keys -/

theorem distinctKey_injective : Function.Injective distinctKey := by
  intro i j h
  have h2 := congrArg (fun s : String => s.data.length) h
  simpa [distinctKey] using h2

theorem distinctKeys_succ (n : Nat) : distinctKeys (n + 1) = distinctKeys n ++ [distinctKey n] := by
  simp [distinctKeys, List.range_succ]

theorem nodup_distinctKeys (n : Nat) : (distinctKeys n).Nodup :=
  List.Nodup.map distinctKey_injective (List.nodup_range n)

theorem distinctKey_not_mem (n : Nat) : distinctKey n ∉ distinctKeys n := by
  intro h
  obtain ⟨i, hi, he⟩ := List.mem_map.1 h
  have := distinctKey_injective he
  rw [List.mem_range] at hi
  omega

theorem dedup_length_distinctKeys (n : Nat) : (distinctKeys n).dedup.length = n := by
  rw [List.Nodup.dedup (nodup_distinctKeys n)]
  simp [distinctKeys]

/-! ## Label allocation: stability, freshness, code points -/

theorem intstring_inj_low (i j : Nat) (hi : i ≤ 55231) (hj : j ≤ 55231)
    (h : intstring (65 + (i : Int)) = intstring (65 + (j : Int))) : i = j := by
  have hc := congrArg codePoint h
  by_cases hi2 : i = 55231
  · by_cases hj2 : j = 55231
    · omega
    · rw [intstring_surrogate _ (by omega) (by omega),
        codePoint_intstring_low _ (by omega) (by omega), codePoint_singleton] at hc
      have h3 : (Char.ofNat 0xFFFD).toNat = 65533 := by decide
      rw [h3] at hc
      omega
  · by_cases hj2 : j = 55231
    · rw [intstring_surrogate (65 + (j : Int)) (by omega) (by omega),
        codePoint_intstring_low _ (by omega) (by omega), codePoint_singleton] at hc
      have h3 : (Char.ofNat 0xFFFD).toNat = 65533 := by decide
      rw [h3] at hc
      omega
    · rw [codePoint_intstring_low _ (by omega) (by omega),
        codePoint_intstring_low _ (by omega) (by omega)] at hc
      omega

theorem Letters.WF.labels_nodup {l : Letters} (h : l.WF) (hb : l.Keys.length ≤ 55232) :
    (l.Keys.map Prod.snd).Nodup := by
  rw [h.labels_eq]
  apply List.Nodup.map_on _ (List.nodup_range _)
  intro i hi j hj he
  rw [List.mem_range] at hi hj
  exact intstring_inj_low i j (by omega) (by omega) he

/-- C7: when the map already holds a label for the node key, `Key` returns that
label and the receiver is unchanged (same counter, same entries); a run of any
number of repeated calls returns the same label every time and ends in the same
state. -/
theorem Key_stable (l : Letters) (val key : String) (n : Nat)
    (h : GoMap.lookup l.Keys val = some key) :
    l.Key val = (key, l)
    ∧ Letters.keyCalls l (List.replicate n val) = (List.replicate n key, l) := by
  refine ⟨Letters.Key_of_lookup_some h, ?_⟩
  induction n with
  | zero => rfl
  | succ n ih =>
    rw [List.replicate_succ, Letters.keyCalls_cons, Letters.Key_of_lookup_some h]
    simp only
    rw [ih]
    rfl

theorem Key_stable_witness :
    GoMap.lookup (NewLetters.Key "example.com/app/a").2.Keys "example.com/app/a" = some "A"
    ∧ (NewLetters.Key "example.com/app/a").2.Key "example.com/app/a"
        = ("A", (NewLetters.Key "example.com/app/a").2)
    ∧ Letters.keyCalls (NewLetters.Key "example.com/app/a").2
        (List.replicate 3 "example.com/app/a")
        = (List.replicate 3 "A", (NewLetters.Key "example.com/app/a").2) :=
  ⟨by decide, Key_stable (NewLetters.Key "example.com/app/a").2 "example.com/app/a" "A" 3
    (by decide)⟩

/-- C6, as the code has it: after calls from `NewLetters` that requested at most
55231 distinct node keys, a call with a node key not requested before returns a
label that none of the earlier calls returned.  After any sequence of calls no
node key has two entries in `Keys`, and when the sequence requested at most 55232
distinct node keys no two entries share a label. -/
theorem Key_fresh_label (pre vals : List String) (val : String) (hval : val ∉ pre)
    (hb : pre.dedup.length ≤ 55231) :
    ((Letters.keyCalls NewLetters pre).2.Key val).1 ∉ (Letters.keyCalls NewLetters pre).1
    ∧ (((Letters.keyCalls NewLetters pre).2.Key val).2.Keys.map Prod.snd).Nodup
    ∧ ((Letters.keyCalls NewLetters vals).2.Keys.map Prod.fst).Nodup
    ∧ (vals.dedup.length ≤ 55232 →
        ((Letters.keyCalls NewLetters vals).2.Keys.map Prod.snd).Nodup) := by
  have hwf := Letters.WF_Key (Letters.WF_keyCalls Letters.WF_NewLetters pre) val
  have hwf2 := Letters.WF_keyCalls Letters.WF_NewLetters vals
  refine ⟨?_, ?_, hwf2.keys_nodup, ?_⟩
  · intro hmem
    rw [Letters.Key_new_label pre val hval] at hmem
    obtain ⟨i, hi, he⟩ := Letters.keyCalls_label_form pre _ hmem
    have := intstring_inj_low _ _ hb (by omega) he
    omega
  · apply hwf.labels_nodup
    have hn : GoMap.lookup (Letters.keyCalls NewLetters pre).2.Keys val = none := by
      rw [GoMap.lookup_eq_none_iff, Letters.mem_keys_keyCalls]
      simp [NewLetters, hval]
    rw [Letters.Key_keys_of_lookup_none hn, List.length_append, Letters.length_keys_keyCalls]
    simp only [List.length_singleton]
    omega
  · intro hv
    apply hwf2.labels_nodup
    rw [Letters.length_keys_keyCalls]
    exact hv

theorem Key_fresh_label_witness :
    "c" ∉ ["a", "b", "a"] ∧ ["a", "b", "a"].dedup.length ≤ 55231
    ∧ ((Letters.keyCalls NewLetters ["a", "b", "a"]).2.Key "c").1
        ∉ (Letters.keyCalls NewLetters ["a", "b", "a"]).1 :=
  ⟨by decide, by decide,
    (Key_fresh_label ["a", "b", "a"] ["a", "b", "a", "c"] "c" (by decide) (by decide)).1⟩

/-- C6 as stated fails: after calls for 55232 distinct node keys, the call for one
more new key returns the label U+FFFD, which the call before it already
returned. -/
theorem Key_fresh_label_counterexample :
    distinctKey 55232 ∉ distinctKeys 55232
    ∧ ((Letters.keyCalls NewLetters (distinctKeys 55232)).2.Key (distinctKey 55232)).1
        ∈ (Letters.keyCalls NewLetters (distinctKeys 55232)).1 := by
  refine ⟨distinctKey_not_mem 55232, ?_⟩
  rw [Letters.Key_new_label _ _ (distinctKey_not_mem 55232), dedup_length_distinctKeys,
    intstring_surrogate _ (by norm_num) (by norm_num)]
  have hs : distinctKeys 55232 = distinctKeys 55231 ++ [distinctKey 55231] :=
    distinctKeys_succ 55231
  rw [hs, Letters.keyCalls_append]
  simp only [Letters.keyCalls_cons, Letters.keyCalls_nil]
  apply List.mem_append_right
  rw [Letters.Key_new_label _ _ (distinctKey_not_mem 55231), dedup_length_distinctKeys,
    intstring_surrogate _ (by norm_num) (by norm_num)]
  exact List.mem_singleton_self _

theorem Char.toNat_isValidChar (c : Char) : c.toNat.isValidChar := c.valid

/-- C8, as the code has it: the `n`-th distinct node key requested from
`NewLetters` receives the one-character string with code point `64 + n` whenever
`64 + n` is a valid code point (so for every `n ≤ 55231`: "A" first, "Z" 26th,
"[" 27th), and the string U+FFFD otherwise. -/
theorem Key_nth_label (pre : List String) (val : String) (n : Nat) (hval : val ∉ pre)
    (hn : n = pre.dedup.length + 1) :
    (Nat.isValidChar (64 + n) → ∃ c : Char, c.toNat = 64 + n
        ∧ ((Letters.keyCalls NewLetters pre).2.Key val).1 = String.singleton c)
    ∧ (n ≤ 55231 → Nat.isValidChar (64 + n))
    ∧ (¬ Nat.isValidChar (64 + n) →
        ((Letters.keyCalls NewLetters pre).2.Key val).1 = String.singleton (Char.ofNat 0xFFFD))
    ∧ (n = 1 → ((Letters.keyCalls NewLetters pre).2.Key val).1 = "A")
    ∧ (n = 26 → ((Letters.keyCalls NewLetters pre).2.Key val).1 = "Z")
    ∧ (n = 27 → ((Letters.keyCalls NewLetters pre).2.Key val).1 = "[") := by
  have hlab : ((Letters.keyCalls NewLetters pre).2.Key val).1 = intstring ((64 + n : Nat) : Int) := by
    rw [Letters.Key_new_label pre val hval, hn]
    congr 1
    push_cast
    ring
  have hto : (((64 + n : Nat) : Int)).toNat = 64 + n := Int.toNat_ofNat _
  refine ⟨?_, ?_, ?_, ?_, ?_, ?_⟩
  · intro hv
    refine ⟨Char.ofNat (64 + n), toNat_ofNat_valid _ hv, ?_⟩
    rw [hlab]
    unfold intstring
    rw [hto, if_pos ⟨Int.ofNat_nonneg _, hv⟩]
  · intro h
    exact Or.inl (by omega)
  · intro hv
    rw [hlab]
    unfold intstring
    rw [hto, if_neg (fun h => hv h.2)]
  · intro h1
    rw [hlab, h1]
    decide
  · intro h1
    rw [hlab, h1]
    decide
  · intro h1
    rw [hlab, h1]
    decide

theorem Key_nth_label_witness :
    "example.com/app/c" ∉ ["example.com/app/a", "example.com/app/b", "example.com/app/a"]
    ∧ ((Letters.keyCalls NewLetters
          ["example.com/app/a", "example.com/app/b", "example.com/app/a"]).2.Key
          "example.com/app/c").1 = "C" := by
  have h := Key_nth_label ["example.com/app/a", "example.com/app/b", "example.com/app/a"]
    "example.com/app/c" 3 (by decide) (by decide)
  refine ⟨by decide, ?_⟩
  obtain ⟨c, hc, he⟩ := h.1 (by decide)
  rw [he]
  have : c = Char.ofNat 67 := by
    rw [← Char.ofNat_toNat c, hc]
  rw [this]
  decide

/-- C8 as stated fails at `n = 55232`: the 55232nd distinct node key receives
U+FFFD, and no character has the code point `64 + 55232 = 0xD800`. -/
theorem Key_nth_label_counterexample :
    distinctKey 55231 ∉ distinctKeys 55231
    ∧ (distinctKeys 55231).dedup.length + 1 = 55232
    ∧ ((Letters.keyCalls NewLetters (distinctKeys 55231)).2.Key (distinctKey 55231)).1
        = String.singleton (Char.ofNat 0xFFFD)
    ∧ ¬ ∃ c : Char, c.toNat = 64 + 55232
        ∧ ((Letters.keyCalls NewLetters (distinctKeys 55231)).2.Key (distinctKey 55231)).1
          = String.singleton c := by
  refine ⟨distinctKey_not_mem 55231, by rw [dedup_length_distinctKeys], ?_, ?_⟩
  · rw [Letters.Key_new_label _ _ (distinctKey_not_mem 55231), dedup_length_distinctKeys,
      intstring_surrogate _ (by norm_num) (by norm_num)]
  · rintro ⟨c, hc, -⟩
    have hv := Char.toNat_isValidChar c
    rw [hc] at hv
    revert hv
    decide

/-! ## The package loop -/

namespace GoMap

variable {V : Type}

theorem assign_assign (m : GoMap V) (k : String) (a b : V) :
    assign (assign m k a) k b = assign m k b := by
  induction m with
  | nil => simp [assign]
  | cons p t ih =>
    obtain ⟨k0, v0⟩ := p
    by_cases h0 : k0 = k
    · simp [assign, h0]
    · simp [assign, h0, ih]

theorem assign_of_lookup {m : GoMap V} {k : String} {v : V} (h : lookup m k = some v) :
    assign m k v = m := by
  induction m with
  | nil => simp [lookup] at h
  | cons p t ih =>
    obtain ⟨k0, v0⟩ := p
    by_cases h0 : k0 = k
    · simp [lookup, h0] at h
      simp [assign, h0, h]
    · simp [lookup, h0] at h
      simp [assign, h0, ih h]

end GoMap

theorem inspectImport_eq (ignore : List String) (ignorePrefix : String) (pkg : Package)
    (pkgPath : String) (imports : GoMap (GoMap Bool)) (is : ImportSpec) :
    inspectImport ignore ignorePrefix pkg pkgPath imports is =
      if survives ignore pkg is then
        match GoMap.lookup imports pkgPath with
        | some inner => GoMap.assign imports pkgPath
            (GoMap.assign inner (importKey ignorePrefix is) true)
        | none => imports
      else imports := by
  unfold inspectImport survives importKey
  by_cases h1 : ignorePgk ignore (strings.ReplaceAll is.Path.Value "\"" "") = true
  · simp [h1]
  · by_cases h2 : strings.Contains is.Path.Value pkg.Module.Path = true
    · simp [h1, h2]
    · simp [h1, h2]

theorem foldl_inspectImport (ignore : List String) (ignorePrefix : String) (pkg : Package)
    (pkgPath : String) (iss : List ImportSpec) (imports : GoMap (GoMap Bool))
    (inner : GoMap Bool) (h : GoMap.lookup imports pkgPath = some inner) :
    iss.foldl (inspectImport ignore ignorePrefix pkg pkgPath) imports =
      GoMap.assign imports pkgPath (iss.foldl (addImport ignore ignorePrefix pkg) inner) := by
  induction iss generalizing imports inner with
  | nil => simp [GoMap.assign_of_lookup h]
  | cons x xs ih =>
    rw [List.foldl_cons, List.foldl_cons, inspectImport_eq, addImport]
    by_cases hs : survives ignore pkg x = true
    · rw [if_pos hs, if_pos hs, h]
      simp only
      rw [ih _ (GoMap.assign inner (importKey ignorePrefix x) true)
        (by simp [GoMap.lookup_assign]), GoMap.assign_assign]
    · rw [if_neg hs, if_neg hs]
      exact ih _ _ h

theorem loadPkg_eq (ignore : List String) (ignorePrefix : String)
    (imports : GoMap (GoMap Bool)) (pkg : Package) :
    loadPkg ignore ignorePrefix imports pkg =
      if ignorePgk ignore pkg.PkgPath then imports
      else GoMap.assign imports (pkgKey ignorePrefix pkg) (importeesOf ignore ignorePrefix pkg) := by
  unfold loadPkg
  by_cases h : ignorePgk ignore pkg.PkgPath = true
  · simp [h]
  · rw [if_neg h, if_neg h]
    simp only
    rw [← List.foldl_flatten,
      foldl_inspectImport _ _ _ _ _ _ [] (by simp [GoMap.lookup_assign]),
      GoMap.assign_assign]
    rfl

theorem mem_keys_foldl_addImport (ignore : List String) (ignorePrefix : String)
    (pkg : Package) (iss : List ImportSpec) (inner : GoMap Bool) (e : String) :
    e ∈ (iss.foldl (addImport ignore ignorePrefix pkg) inner).map Prod.fst ↔
      e ∈ inner.map Prod.fst ∨
        ∃ is ∈ iss, survives ignore pkg is = true ∧ importKey ignorePrefix is = e := by
  induction iss generalizing inner with
  | nil => simp
  | cons x xs ih =>
    rw [List.foldl_cons, ih, addImport]
    by_cases hs : survives ignore pkg x = true
    · rw [if_pos hs, GoMap.mem_keys_assign]
      constructor
      · rintro ((rfl | h) | ⟨y, hy, hys, hye⟩)
        · exact Or.inr ⟨x, List.mem_cons_self _ _, hs, rfl⟩
        · exact Or.inl h
        · exact Or.inr ⟨y, List.mem_cons_of_mem _ hy, hys, hye⟩
      · rintro (h | ⟨y, hy, hys, hye⟩)
        · exact Or.inl (Or.inr h)
        · rcases List.mem_cons.1 hy with rfl | hy
          · exact Or.inl (Or.inl hye.symm)
          · exact Or.inr ⟨y, hy, hys, hye⟩
    · rw [if_neg hs]
      constructor
      · rintro (h | ⟨y, hy, hys, hye⟩)
        · exact Or.inl h
        · exact Or.inr ⟨y, List.mem_cons_of_mem _ hy, hys, hye⟩
      · rintro (h | ⟨y, hy, hys, hye⟩)
        · exact Or.inl h
        · rcases List.mem_cons.1 hy with rfl | hy
          · exact absurd hys hs
          · exact Or.inr ⟨y, hy, hys, hye⟩

theorem nodup_keys_foldl_addImport (ignore : List String) (ignorePrefix : String)
    (pkg : Package) (iss : List ImportSpec) (inner : GoMap Bool)
    (h : (inner.map Prod.fst).Nodup) :
    ((iss.foldl (addImport ignore ignorePrefix pkg) inner).map Prod.fst).Nodup := by
  induction iss generalizing inner with
  | nil => exact h
  | cons x xs ih =>
    rw [List.foldl_cons]
    apply ih
    unfold addImport
    split
    · exact GoMap.nodup_keys_assign _ _ _ h
    · exact h

theorem mem_keys_importeesOf (ignore : List String) (ignorePrefix : String) (pkg : Package)
    (e : String) :
    (GoMap.lookup (importeesOf ignore ignorePrefix pkg) e).isSome = true ↔
      ∃ is ∈ pkg.Syntax.flatten,
        survives ignore pkg is = true ∧ importKey ignorePrefix is = e := by
  rw [GoMap.lookup_isSome_iff, importeesOf, mem_keys_foldl_addImport]
  simp

theorem nodup_keys_importeesOf (ignore : List String) (ignorePrefix : String) (pkg : Package) :
    ((importeesOf ignore ignorePrefix pkg).map Prod.fst).Nodup :=
  nodup_keys_foldl_addImport _ _ _ _ _ (by simp)

/-- Packages that are excluded or have another node key leave the entry of `k`
alone. -/
theorem lookup_foldl_loadPkg_of_forall (ignore : List String) (ignorePrefix : String)
    (pkgs : List Package) (m : GoMap (GoMap Bool)) (k : String)
    (h : ∀ Q ∈ pkgs, ignorePgk ignore Q.PkgPath = true ∨ pkgKey ignorePrefix Q ≠ k) :
    GoMap.lookup (pkgs.foldl (loadPkg ignore ignorePrefix) m) k = GoMap.lookup m k := by
  induction pkgs generalizing m with
  | nil => rfl
  | cons Q rest ih =>
    rw [List.foldl_cons, ih _ (fun R hR => h R (List.mem_cons_of_mem _ hR)), loadPkg_eq]
    rcases h Q (List.mem_cons_self _ _) with hq | hq
    · rw [if_pos hq]
    · by_cases hq2 : ignorePgk ignore Q.PkgPath = true
      · rw [if_pos hq2]
      · rw [if_neg hq2, GoMap.lookup_assign, if_neg hq]

/-- The entry of a node key is the inner map of the last package processed under
that key. -/
theorem lookup_buildImports_last (ignore : List String) (ignorePrefix : String)
    (pre post : List Package) (P : Package) (hP : ignorePgk ignore P.PkgPath = false)
    (hpost : ∀ Q ∈ post,
      ignorePgk ignore Q.PkgPath = true ∨ pkgKey ignorePrefix Q ≠ pkgKey ignorePrefix P) :
    GoMap.lookup (buildImports ignore ignorePrefix (pre ++ P :: post)) (pkgKey ignorePrefix P)
      = some (importeesOf ignore ignorePrefix P) := by
  unfold buildImports
  rw [List.foldl_append, List.foldl_cons, lookup_foldl_loadPkg_of_forall _ _ _ _ _ hpost,
    loadPkg_eq, hP]
  simp [GoMap.lookup_assign]

theorem lookup_foldl_loadPkg_some (ignore : List String) (ignorePrefix : String)
    (pkgs : List Package) (m : GoMap (GoMap Bool)) (k : String) (inner : GoMap Bool)
    (h : GoMap.lookup (pkgs.foldl (loadPkg ignore ignorePrefix) m) k = some inner) :
    (∃ P ∈ pkgs, ignorePgk ignore P.PkgPath = false ∧ pkgKey ignorePrefix P = k
        ∧ inner = importeesOf ignore ignorePrefix P)
      ∨ GoMap.lookup m k = some inner := by
  induction pkgs generalizing m with
  | nil => exact Or.inr h
  | cons Q rest ih =>
    rw [List.foldl_cons] at h
    rcases ih _ h with ⟨P, hP, h1, h2, h3⟩ | h'
    · exact Or.inl ⟨P, List.mem_cons_of_mem _ hP, h1, h2, h3⟩
    · rw [loadPkg_eq] at h'
      by_cases hq : ignorePgk ignore Q.PkgPath = true
      · rw [if_pos hq] at h'
        exact Or.inr h'
      · rw [if_neg hq, GoMap.lookup_assign] at h'
        by_cases hk : pkgKey ignorePrefix Q = k
        · rw [if_pos hk] at h'
          refine Or.inl ⟨Q, List.mem_cons_self _ _, by simpa using hq, hk, ?_⟩
          exact (Option.some.inj h').symm
        · rw [if_neg hk] at h'
          exact Or.inr h'

theorem lookup_buildImports_some (ignore : List String) (ignorePrefix : String)
    (pkgs : List Package) (k : String) (inner : GoMap Bool)
    (h : GoMap.lookup (buildImports ignore ignorePrefix pkgs) k = some inner) :
    ∃ P ∈ pkgs, ignorePgk ignore P.PkgPath = false ∧ pkgKey ignorePrefix P = k
      ∧ inner = importeesOf ignore ignorePrefix P := by
  rcases lookup_foldl_loadPkg_some _ _ _ _ _ _ h with h | h
  · exact h
  · simp [GoMap.lookup] at h

theorem nodup_keys_foldl_loadPkg (ignore : List String) (ignorePrefix : String)
    (pkgs : List Package) (m : GoMap (GoMap Bool)) (h : (m.map Prod.fst).Nodup) :
    ((pkgs.foldl (loadPkg ignore ignorePrefix) m).map Prod.fst).Nodup := by
  induction pkgs generalizing m with
  | nil => exact h
  | cons Q rest ih =>
    rw [List.foldl_cons]
    apply ih
    rw [loadPkg_eq]
    split
    · exact h
    · exact GoMap.nodup_keys_assign _ _ _ h

theorem nodup_keys_buildImports (ignore : List String) (ignorePrefix : String)
    (pkgs : List Package) :
    ((buildImports ignore ignorePrefix pkgs).map Prod.fst).Nodup :=
  nodup_keys_foldl_loadPkg _ _ _ _ (by simp)

theorem nodup_inner_buildImports (ignore : List String) (ignorePrefix : String)
    (pkgs : List Package) (entry : String × GoMap Bool)
    (h : entry ∈ buildImports ignore ignorePrefix pkgs) : (entry.2.map Prod.fst).Nodup := by
  obtain ⟨k, inner⟩ := entry
  have hl := GoMap.lookup_of_mem (nodup_keys_buildImports ignore ignorePrefix pkgs) h
  obtain ⟨P, -, -, -, rfl⟩ := lookup_buildImports_some _ _ _ _ _ hl
  exact nodup_keys_importeesOf _ _ _

/-! ## The print loops -/

theorem printEdges_eq_foldl (σ : RangeOrder) (imports : GoMap (GoMap Bool))
    (st : Letters × List String) :
    printEdges σ imports st =
      (edgeSeq σ imports).foldl (fun st p => printEdge p.1 st p.2) st := by
  simp only [printEdges, edgeSeq, List.flatMap_def, List.foldl_flatten, List.foldl_map]

theorem foldl_printEdge (seq : List (String × String)) (l : Letters) (out : List String) :
    seq.foldl (fun st p => printEdge p.1 st p.2) (l, out) =
      ((Letters.keyCalls l (keyArgs seq)).2,
        out ++ seq.map (fun p => edgeLine
          ((GoMap.lookup (Letters.keyCalls l (keyArgs seq)).2.Keys p.2).getD "")
          ((GoMap.lookup (Letters.keyCalls l (keyArgs seq)).2.Keys p.1).getD ""))) := by
  induction seq generalizing l out with
  | nil => simp [keyArgs]
  | cons p rest ih =>
    have hargs : keyArgs (p :: rest) = p.2 :: p.1 :: keyArgs rest := by
      simp [keyArgs]
    have hstep : printEdge p.1 (l, out) p.2 =
        (((l.Key p.2).2.Key p.1).2,
          out ++ [edgeLine (l.Key p.2).1 ((l.Key p.2).2.Key p.1).1]) := rfl
    rw [List.foldl_cons, hstep, ih, hargs]
    simp only [Letters.keyCalls_cons, List.map_cons, List.append_assoc, List.singleton_append]
    have ha := Letters.lookup_keyCalls_mono
      (Letters.lookup_Key_mono (Letters.lookup_Key_self l p.2) p.1) (keyArgs rest)
    have hb := Letters.lookup_keyCalls_mono
      (Letters.lookup_Key_self (l.Key p.2).2 p.1) (keyArgs rest)
    rw [ha, hb]
    rfl

theorem finalLetters_eq (σ : RangeOrder) (imports : GoMap (GoMap Bool)) :
    finalLetters σ imports = (Letters.keyCalls NewLetters (keyArgs (edgeSeq σ imports))).2 := by
  rw [finalLetters, printEdges_eq_foldl, foldl_printEdge]

theorem printNodes_eq (σ : RangeOrder) (letters : Letters) (out : List String) :
    printNodes σ letters out = out ++ (σ.keys letters.Keys).map (fun d => nodeLine d.2 d.1) := by
  unfold printNodes
  generalize σ.keys letters.Keys = ds
  induction ds generalizing out with
  | nil => simp
  | cons d ds ih => simp [ih]

/-- The layout of the output: header, one line per visited edge, one line per
entry of `letters.Keys`. -/
theorem printGraph_eq (σ : RangeOrder) (imports : GoMap (GoMap Bool)) :
    printGraph σ imports =
      "flowchart BT\n" ::
        ((edgeSeq σ imports).map
            (fun p => edgeLine (labelOf σ imports p.2) (labelOf σ imports p.1))
          ++ (nodeDecls σ imports).map (fun d => nodeLine d.2 d.1)) := by
  unfold printGraph
  simp only
  rw [printNodes_eq]
  have h1 : (printEdges σ imports (NewLetters, ["flowchart BT\n"])).1 = finalLetters σ imports :=
    rfl
  rw [h1]
  have h2 : (printEdges σ imports (NewLetters, ["flowchart BT\n"])).2 =
      "flowchart BT\n" :: (edgeSeq σ imports).map
        (fun p => edgeLine (labelOf σ imports p.2) (labelOf σ imports p.1)) := by
    unfold labelOf
    rw [finalLetters_eq, printEdges_eq_foldl, foldl_printEdge]
    rfl
  rw [h2]
  rfl

theorem WF_finalLetters (σ : RangeOrder) (imports : GoMap (GoMap Bool)) :
    (finalLetters σ imports).WF := by
  rw [finalLetters_eq]
  exact Letters.WF_keyCalls Letters.WF_NewLetters _

theorem mem_keyArgs (seq : List (String × String)) (k : String) :
    k ∈ keyArgs seq ↔ ∃ p ∈ seq, k = p.1 ∨ k = p.2 := by
  simp only [keyArgs, List.mem_flatMap, List.mem_cons, List.mem_singleton, List.not_mem_nil,
    or_false]
  constructor
  · rintro ⟨p, hp, h | h⟩
    · exact ⟨p, hp, Or.inr h⟩
    · exact ⟨p, hp, Or.inl h⟩
  · rintro ⟨p, hp, h | h⟩
    · exact ⟨p, hp, Or.inr h⟩
    · exact ⟨p, hp, Or.inl h⟩

theorem nodeDecls_perm (σ : RangeOrder) (imports : GoMap (GoMap Bool)) :
    (nodeDecls σ imports).Perm (finalLetters σ imports).Keys :=
  σ.keys_perm _

theorem nodup_keys_nodeDecls (σ : RangeOrder) (imports : GoMap (GoMap Bool)) :
    ((nodeDecls σ imports).map Prod.fst).Nodup :=
  ((nodeDecls_perm σ imports).map Prod.fst).nodup_iff.2 (WF_finalLetters σ imports).keys_nodup

theorem mem_keys_nodeDecls (σ : RangeOrder) (imports : GoMap (GoMap Bool)) (k : String) :
    k ∈ (nodeDecls σ imports).map Prod.fst ↔
      ∃ p ∈ edgeSeq σ imports, k = p.1 ∨ k = p.2 := by
  rw [((nodeDecls_perm σ imports).map Prod.fst).mem_iff, finalLetters_eq,
    Letters.mem_keys_keyCalls, mem_keyArgs]
  simp [NewLetters]

theorem label_of_mem_nodeDecls (σ : RangeOrder) (imports : GoMap (GoMap Bool))
    (d : String × String) (h : d ∈ nodeDecls σ imports) : d.2 = labelOf σ imports d.1 := by
  have hm : (d.1, d.2) ∈ (finalLetters σ imports).Keys := (nodeDecls_perm σ imports).mem_iff.1 h
  unfold labelOf
  rw [GoMap.lookup_of_mem (WF_finalLetters σ imports).keys_nodup hm]
  rfl

theorem nodup_labels_nodeDecls (σ : RangeOrder) (imports : GoMap (GoMap Bool))
    (hb : (nodeDecls σ imports).length ≤ 55232) :
    ((nodeDecls σ imports).map Prod.snd).Nodup := by
  rw [((nodeDecls_perm σ imports).map Prod.snd).nodup_iff]
  apply (WF_finalLetters σ imports).labels_nodup
  rw [← (nodeDecls_perm σ imports).length_eq]
  exact hb

/-! ## The visited edges are the edges of the graph -/

theorem mem_edgeSeq (σ : RangeOrder) (imports : GoMap (GoMap Bool))
    (h : (imports.map Prod.fst).Nodup) (k e : String) :
    (k, e) ∈ edgeSeq σ imports ↔ hasEdge imports k e = true := by
  unfold edgeSeq hasEdge
  simp only [List.mem_flatMap, List.mem_map, Prod.mk.injEq]
  constructor
  · rintro ⟨entry, hentry, inner, hinner, rfl, rfl⟩
    have h1 : (entry.1, entry.2) ∈ imports := (σ.importers_perm imports).mem_iff.1 hentry
    rw [GoMap.lookup_of_mem h h1]
    simp only
    rw [GoMap.lookup_isSome_iff]
    exact List.mem_map.2 ⟨inner, (σ.importees_perm _ _).mem_iff.1 hinner, rfl⟩
  · intro hl
    cases hlk : GoMap.lookup imports k with
    | none => rw [hlk] at hl; cases hl
    | some inner =>
      rw [hlk] at hl
      simp only at hl
      rw [GoMap.lookup_isSome_iff] at hl
      obtain ⟨x, hx, rfl⟩ := List.mem_map.1 hl
      exact ⟨(k, inner), (σ.importers_perm imports).mem_iff.2 (GoMap.mem_of_lookup hlk),
        x, (σ.importees_perm _ _).mem_iff.2 hx, rfl, rfl⟩

theorem nodup_edgeSeq (σ : RangeOrder) (imports : GoMap (GoMap Bool))
    (h : (imports.map Prod.fst).Nodup)
    (hin : ∀ entry ∈ imports, (entry.2.map Prod.fst).Nodup) :
    (edgeSeq σ imports).Nodup := by
  unfold edgeSeq
  rw [List.nodup_flatMap]
  constructor
  · intro entry hentry
    have h1 := hin entry ((σ.importers_perm imports).mem_iff.1 hentry)
    have h2 : ((σ.importees entry.1 entry.2).map Prod.fst).Nodup :=
      ((σ.importees_perm entry.1 entry.2).map Prod.fst).nodup_iff.2 h1
    have h3 : (σ.importees entry.1 entry.2).map (fun inner => (entry.1, inner.1))
        = ((σ.importees entry.1 entry.2).map Prod.fst).map (fun e => (entry.1, e)) := by
      rw [List.map_map]; rfl
    rw [h3]
    exact List.Nodup.map (fun a b hab => (Prod.mk.inj hab).2) h2
  · have h1 : ((σ.importers imports).map Prod.fst).Nodup :=
      ((σ.importers_perm imports).map Prod.fst).nodup_iff.2 h
    have h2 := List.pairwise_map.1 h1
    refine h2.imp ?_
    intro a b hab
    simp only [Function.onFun]
    intro x hxa hxb
    obtain ⟨y, -, rfl⟩ := List.mem_map.1 hxa
    obtain ⟨z, -, hz⟩ := List.mem_map.1 hxb
    exact hab (Prod.mk.inj hz).1.symm

/-- In a list whose `f`-values are pairwise distinct, the number of entries with
`f`-value `a` is one if `a` occurs and zero otherwise. -/
theorem length_filter_of_nodup {α β : Type} [DecidableEq β] (f : α → β) (l : List α)
    (h : (l.map f).Nodup) (a : β) :
    (l.filter (fun x => decide (f x = a))).length = if a ∈ l.map f then 1 else 0 := by
  induction l with
  | nil => simp
  | cons x xs ih =>
    rw [List.map_cons, List.nodup_cons] at h
    by_cases hx : f x = a
    · subst hx
      have h0 : (xs.filter (fun y => decide (f y = f x))).length = 0 := by
        rw [ih h.2, if_neg h.1]
      rw [List.filter_cons_of_pos (by simp), List.length_cons, h0]
      simp
    · rw [List.filter_cons_of_neg (by simp [hx]), ih h.2]
      simp [Ne.symm hx]

theorem count_edgeSeq (σ : RangeOrder) (imports : GoMap (GoMap Bool))
    (h : (imports.map Prod.fst).Nodup)
    (hin : ∀ entry ∈ imports, (entry.2.map Prod.fst).Nodup) (k e : String) :
    ((edgeSeq σ imports).filter (fun p => decide (p = (k, e)))).length
      = if hasEdge imports k e = true then 1 else 0 := by
  have h1 := length_filter_of_nodup id (edgeSeq σ imports)
    (by rw [List.map_id]; exact nodup_edgeSeq σ imports h hin) (k, e)
  rw [List.map_id] at h1
  simp only [id] at h1
  rw [h1]
  by_cases he : hasEdge imports k e = true
  · rw [if_pos he, if_pos ((mem_edgeSeq σ imports h k e).2 he)]
  · rw [if_neg he, if_neg (fun hm => he ((mem_edgeSeq σ imports h k e).1 hm))]

/-! ## The graph built by `main` -/

theorem mem_keys_foldl_loadPkg_mono (ignore : List String) (ignorePrefix : String)
    (pkgs : List Package) (m : GoMap (GoMap Bool)) (k : String)
    (h : k ∈ m.map Prod.fst) :
    k ∈ (pkgs.foldl (loadPkg ignore ignorePrefix) m).map Prod.fst := by
  induction pkgs generalizing m with
  | nil => exact h
  | cons Q rest ih =>
    rw [List.foldl_cons]
    apply ih
    rw [loadPkg_eq]
    split
    · exact h
    · exact (GoMap.mem_keys_assign _ _ _ _).2 (Or.inr h)

theorem mem_keys_buildImports (ignore : List String) (ignorePrefix : String)
    (pkgs : List Package) (P : Package) (hP : P ∈ pkgs)
    (hi : ignorePgk ignore P.PkgPath = false) :
    (GoMap.lookup (buildImports ignore ignorePrefix pkgs) (pkgKey ignorePrefix P)).isSome
      = true := by
  obtain ⟨pre, post, rfl⟩ := List.append_of_mem hP
  rw [GoMap.lookup_isSome_iff]
  unfold buildImports
  rw [List.foldl_append, List.foldl_cons]
  apply mem_keys_foldl_loadPkg_mono
  rw [loadPkg_eq, hi]
  exact (GoMap.mem_keys_assign _ _ _ _).2 (Or.inl rfl)

theorem foldl_loadPkg_congr (ignore : List String) (ignorePrefix : String)
    (pre post : List Package) (P P' : Package)
    (h : ∀ m, loadPkg ignore ignorePrefix m P' = loadPkg ignore ignorePrefix m P) :
    buildImports ignore ignorePrefix (pre ++ P' :: post)
      = buildImports ignore ignorePrefix (pre ++ P :: post) := by
  unfold buildImports
  rw [List.foldl_append, List.foldl_append, List.foldl_cons, List.foldl_cons, h]

theorem addImport_of_not_survives (ignore : List String) (ignorePrefix : String)
    (pkg : Package) (inner : GoMap Bool) (x : ImportSpec)
    (hx : survives ignore pkg x = false) :
    addImport ignore ignorePrefix pkg inner x = inner := by
  simp [addImport, hx]

theorem survives_eq_false_iff (ignore : List String) (pkg : Package) (x : ImportSpec) :
    survives ignore pkg x = false ↔
      (ignorePgk ignore (strings.ReplaceAll x.Path.Value "\"" "") = true
        ∨ strings.Contains x.Path.Value pkg.Module.Path = false) := by
  unfold survives
  cases ignorePgk ignore (strings.ReplaceAll x.Path.Value "\"" "") <;>
    cases strings.Contains x.Path.Value pkg.Module.Path <;> simp

theorem survives_eq_true_iff (ignore : List String) (pkg : Package) (x : ImportSpec) :
    survives ignore pkg x = true ↔
      (ignorePgk ignore (strings.ReplaceAll x.Path.Value "\"" "") = false
        ∧ strings.Contains x.Path.Value pkg.Module.Path = true) := by
  unfold survives
  cases ignorePgk ignore (strings.ReplaceAll x.Path.Value "\"" "") <;>
    cases strings.Contains x.Path.Value pkg.Module.Path <;> simp

theorem data_unquote (v : String) :
    (strings.ReplaceAll v "\"" "").data = v.data.filter (fun x => x != '"') := by
  unfold strings.ReplaceAll
  have h : ("\"" : String).data = ['"'] := rfl
  have h2 : ("" : String).data = [] := rfl
  rw [h, h2, if_neg (by simp), replaceChars_single]

/-- A quote-free string that occurs in an import literal occurs in its unquoted
form. -/
theorem infix_unquote (m v : String) (hq : '"' ∉ m.data) (h : m.data <:+: v.data) :
    m.data <:+: (strings.ReplaceAll v "\"" "").data := by
  obtain ⟨s, t, hst⟩ := h
  rw [data_unquote, ← hst, List.filter_append, List.filter_append]
  have hm : m.data.filter (fun x => x != '"') = m.data := by
    rw [List.filter_eq_self]
    intro a ha
    have : a ≠ '"' := fun hh => hq (hh ▸ ha)
    simpa using this
  rw [hm]
  exact ⟨_, _, rfl⟩

/-- C3: a package whose path contains a non-empty exclusion rule is skipped: the
map `imports` and the output are those of the same run without the package; and
an import whose unquoted path is that package path is dropped by the callback,
whatever package it occurs in, leaving `imports` as it was. -/
theorem excluded_package_contributes_nothing (σ : RangeOrder) (ignore : List String)
    (ignorePrefix : String) (pre post : List Package) (P Q : Package) (pkgPath : String)
    (imports : GoMap (GoMap Bool)) (is : ImportSpec)
    (h : ∃ r ∈ ignore, r ≠ "" ∧ r.data <:+: P.PkgPath.data)
    (his : strings.ReplaceAll is.Path.Value "\"" "" = P.PkgPath) :
    buildImports ignore ignorePrefix (pre ++ P :: post)
        = buildImports ignore ignorePrefix (pre ++ post)
    ∧ mainWith σ ignore ignorePrefix (pre ++ P :: post)
        = mainWith σ ignore ignorePrefix (pre ++ post)
    ∧ inspectImport ignore ignorePrefix Q pkgPath imports is = imports
    ∧ addImport ignore ignorePrefix Q [] is = [] := by
  have hig : ignorePgk ignore P.PkgPath = true := (ignorePgk_eq_true_iff _ _).2 h
  have hb : buildImports ignore ignorePrefix (pre ++ P :: post)
      = buildImports ignore ignorePrefix (pre ++ post) := by
    unfold buildImports
    rw [List.foldl_append, List.foldl_append, List.foldl_cons, loadPkg_eq, if_pos hig]
  have hs : survives ignore Q is = false :=
    (survives_eq_false_iff _ _ _).2 (Or.inl (by rw [his]; exact hig))
  refine ⟨hb, ?_, ?_, ?_⟩
  · unfold mainWith
    rw [hb]
  · rw [inspectImport_eq, hs]
    simp
  · exact addImport_of_not_survives _ _ _ _ _ hs

theorem excluded_package_contributes_nothing_witness :
    (∃ r ∈ ["/b"], r ≠ "" ∧ r.data <:+: "example.com/app/b".data)
    ∧ mainWith RangeOrder.stored ["/b"] ""
        ([samplePkg "example.com/app/a" ["\"example.com/app/b\""]]
          ++ samplePkg "example.com/app/b" [] :: [])
      = mainWith RangeOrder.stored ["/b"] ""
        ([samplePkg "example.com/app/a" ["\"example.com/app/b\""]] ++ []) :=
  have h : ∃ r ∈ ["/b"], r ≠ "" ∧ r.data <:+: "example.com/app/b".data :=
    ⟨"/b", by decide, by decide, "example.com/app".data, [], by decide⟩
  ⟨h, (excluded_package_contributes_nothing RangeOrder.stored ["/b"] ""
    [samplePkg "example.com/app/a" ["\"example.com/app/b\""]] []
    (samplePkg "example.com/app/b" []) (samplePkg "example.com/app/a" [])
    "example.com/app/a" [] ⟨⟨"\"example.com/app/b\""⟩⟩ h (by decide)).2.1⟩

/-- C10: every importee key of the graph is the prefix-stripped, unquoted form of
an import literal of a non-excluded package with that importer key, a literal that
contains the module path of the package and matches no exclusion rule.  An import
that fails one of the two tests leaves `imports` as it was, and the package without
that import has the same node key and yields the same graph. -/
theorem importee_is_internal_import (ignore : List String) (ignorePrefix : String)
    (pkgs pre post : List Package) (P : Package) (fs1 fs2 : List (List ImportSpec))
    (is1 is2 : List ImportSpec) (x : ImportSpec) (pkgPath : String)
    (imports : GoMap (GoMap Bool))
    (hS : P.Syntax = fs1 ++ (is1 ++ x :: is2) :: fs2)
    (hx : ignorePgk ignore (strings.ReplaceAll x.Path.Value "\"" "") = true
      ∨ strings.Contains x.Path.Value P.Module.Path = false) :
    (∀ k e, hasEdge (buildImports ignore ignorePrefix pkgs) k e = true →
      ∃ Q ∈ pkgs, ignorePgk ignore Q.PkgPath = false ∧ pkgKey ignorePrefix Q = k
        ∧ ∃ is ∈ Q.Syntax.flatten,
            strings.Contains is.Path.Value Q.Module.Path = true
            ∧ ignorePgk ignore (strings.ReplaceAll is.Path.Value "\"" "") = false
            ∧ e = strings.ReplaceAll (strings.ReplaceAll is.Path.Value "\"" "")
                ignorePrefix ""
            ∧ ('"' ∉ Q.Module.Path.data →
                Q.Module.Path.data <:+: (strings.ReplaceAll is.Path.Value "\"" "").data))
    ∧ inspectImport ignore ignorePrefix P pkgPath imports x = imports
    ∧ pkgKey ignorePrefix { P with Syntax := fs1 ++ (is1 ++ is2) :: fs2 }
        = pkgKey ignorePrefix P
    ∧ buildImports ignore ignorePrefix
        (pre ++ { P with Syntax := fs1 ++ (is1 ++ is2) :: fs2 } :: post)
        = buildImports ignore ignorePrefix (pre ++ P :: post) := by
  have hs : survives ignore P x = false := (survives_eq_false_iff _ _ _).2 hx
  refine ⟨?_, ?_, rfl, ?_⟩
  · intro k e he
    unfold hasEdge at he
    cases hl : GoMap.lookup (buildImports ignore ignorePrefix pkgs) k with
    | none => rw [hl] at he; cases he
    | some inner =>
      rw [hl] at he
      simp only at he
      obtain ⟨Q, hQ, hQi, hQk, rfl⟩ := lookup_buildImports_some _ _ _ _ _ hl
      obtain ⟨is, his, hsv, hkey⟩ := (mem_keys_importeesOf _ _ _ _).1 he
      have := (survives_eq_true_iff _ _ _).1 hsv
      exact ⟨Q, hQ, hQi, hQk, is, his, this.2, this.1, hkey.symm,
        fun hq => infix_unquote _ _ hq ((Contains_iff _ _).1 this.2)⟩
  · rw [inspectImport_eq, hs]
    simp
  · apply foldl_loadPkg_congr
    intro m
    rw [loadPkg_eq, loadPkg_eq]
    have hi : importeesOf ignore ignorePrefix { P with Syntax := fs1 ++ (is1 ++ is2) :: fs2 }
        = importeesOf ignore ignorePrefix P := by
      unfold importeesOf
      rw [hS]
      simp only [List.flatten_append, List.flatten_cons, List.foldl_append, List.foldl_cons]
      have h1 : addImport ignore ignorePrefix
          { P with Syntax := fs1 ++ (is1 ++ is2) :: fs2 }
            = addImport ignore ignorePrefix P := rfl
      rw [h1, addImport_of_not_survives _ _ _ _ _ hs]
    rw [hi]
    rfl

theorem importee_is_internal_import_witness :
    (ignorePgk [""] (strings.ReplaceAll "\"fmt\"" "\"" "") = true
      ∨ strings.Contains "\"fmt\"" "example.com/app" = false)
    ∧ buildImports [""] ""
        ([] ++ { samplePkg "example.com/app/a" ["\"fmt\"", "\"example.com/app/b\""] with
                 Syntax := [] ++ ([] ++ [⟨⟨"\"example.com/app/b\""⟩⟩]) :: [] }
          :: [samplePkg "example.com/app/b" []])
      = buildImports [""] ""
        ([] ++ samplePkg "example.com/app/a" ["\"fmt\"", "\"example.com/app/b\""]
          :: [samplePkg "example.com/app/b" []]) :=
  ⟨by decide,
    (importee_is_internal_import [""] "" [] [] [samplePkg "example.com/app/b" []]
      (samplePkg "example.com/app/a" ["\"fmt\"", "\"example.com/app/b\""]) [] [] []
      [⟨⟨"\"example.com/app/b\""⟩⟩] ⟨⟨"\"fmt\""⟩⟩ "example.com/app/a" [] rfl
      (by decide)).2.2.2⟩

theorem mainWith_eq (σ : RangeOrder) (ignore : List String) (ignorePrefix : String)
    (pkgs : List Package) :
    mainWith σ ignore ignorePrefix pkgs =
      "flowchart BT\n" ::
        ((edgeSeq σ (buildImports ignore ignorePrefix pkgs)).map
            (fun p => edgeLine (labelOf σ (buildImports ignore ignorePrefix pkgs) p.2)
              (labelOf σ (buildImports ignore ignorePrefix pkgs) p.1))
          ++ (nodeDecls σ (buildImports ignore ignorePrefix pkgs)).map
            (fun d => nodeLine d.2 d.1)) :=
  printGraph_eq σ _

theorem mem_edgeSeq_buildImports (σ : RangeOrder) (ignore : List String)
    (ignorePrefix : String) (pkgs : List Package) (k e : String) :
    (k, e) ∈ edgeSeq σ (buildImports ignore ignorePrefix pkgs)
      ↔ hasEdge (buildImports ignore ignorePrefix pkgs) k e = true :=
  mem_edgeSeq σ _ (nodup_keys_buildImports _ _ _) k e

/-- C2, as the code has it: for a non-excluded package `P` that is the last one
processed under its node key `k`, the graph has the edge `k -> e` exactly when
some import literal of `P` matches no exclusion rule, contains the module path and
has `e` as its unquoted, prefix-stripped form; the edge loops visit exactly the edges
of the graph, and for each of them the line `label(e) --> label(k)` is in the
output. -/
theorem edge_iff_import_of_last_package (σ : RangeOrder) (ignore : List String)
    (ignorePrefix : String) (pre post : List Package) (P : Package) (e : String)
    (hP : ignorePgk ignore P.PkgPath = false)
    (hpost : ∀ Q ∈ post,
      ignorePgk ignore Q.PkgPath = true ∨ pkgKey ignorePrefix Q ≠ pkgKey ignorePrefix P) :
    (hasEdge (buildImports ignore ignorePrefix (pre ++ P :: post)) (pkgKey ignorePrefix P) e
        = true ↔
      ∃ is ∈ P.Syntax.flatten,
        ignorePgk ignore (strings.ReplaceAll is.Path.Value "\"" "") = false
        ∧ strings.Contains is.Path.Value P.Module.Path = true
        ∧ strings.ReplaceAll (strings.ReplaceAll is.Path.Value "\"" "") ignorePrefix "" = e)
    ∧ ((pkgKey ignorePrefix P, e)
          ∈ edgeSeq σ (buildImports ignore ignorePrefix (pre ++ P :: post)) ↔
        hasEdge (buildImports ignore ignorePrefix (pre ++ P :: post))
          (pkgKey ignorePrefix P) e = true)
    ∧ (hasEdge (buildImports ignore ignorePrefix (pre ++ P :: post)) (pkgKey ignorePrefix P) e
        = true →
      edgeLine (labelOf σ (buildImports ignore ignorePrefix (pre ++ P :: post)) e)
          (labelOf σ (buildImports ignore ignorePrefix (pre ++ P :: post))
            (pkgKey ignorePrefix P))
        ∈ mainWith σ ignore ignorePrefix (pre ++ P :: post)) := by
  refine ⟨?_, mem_edgeSeq_buildImports _ _ _ _ _ _, ?_⟩
  · unfold hasEdge
    rw [lookup_buildImports_last ignore ignorePrefix pre post P hP hpost]
    simp only
    rw [mem_keys_importeesOf]
    constructor
    · rintro ⟨is, his, hsv, hkey⟩
      have := (survives_eq_true_iff _ _ _).1 hsv
      exact ⟨is, his, this.1, this.2, hkey⟩
    · rintro ⟨is, his, h1, h2, hkey⟩
      exact ⟨is, his, (survives_eq_true_iff _ _ _).2 ⟨h1, h2⟩, hkey⟩
  · intro he
    rw [mainWith_eq]
    apply List.mem_cons_of_mem
    apply List.mem_append_left
    exact List.mem_map.2 ⟨(pkgKey ignorePrefix P, e),
      (mem_edgeSeq_buildImports _ _ _ _ _ _).2 he, rfl⟩

theorem edge_iff_import_of_last_package_witness :
    ignorePgk [""] "example.com/app/a" = false
    ∧ hasEdge (buildImports [""] "" ([] ++ samplePkg "example.com/app/a"
          ["\"example.com/app/b\""] :: [samplePkg "example.com/app/b" []]))
        (pkgKey "" (samplePkg "example.com/app/a" ["\"example.com/app/b\""]))
        "example.com/app/b" = true
    ∧ edgeLine
        (labelOf RangeOrder.stored (buildImports [""] "" ([] ++ samplePkg "example.com/app/a"
          ["\"example.com/app/b\""] :: [samplePkg "example.com/app/b" []]))
          "example.com/app/b")
        (labelOf RangeOrder.stored (buildImports [""] "" ([] ++ samplePkg "example.com/app/a"
          ["\"example.com/app/b\""] :: [samplePkg "example.com/app/b" []]))
          (pkgKey "" (samplePkg "example.com/app/a" ["\"example.com/app/b\""])))
      ∈ mainWith RangeOrder.stored [""] "" ([] ++ samplePkg "example.com/app/a"
          ["\"example.com/app/b\""] :: [samplePkg "example.com/app/b" []]) :=
  have h := edge_iff_import_of_last_package RangeOrder.stored [""] "" []
    [samplePkg "example.com/app/b" []]
    (samplePkg "example.com/app/a" ["\"example.com/app/b\""]) "example.com/app/b"
    (by decide) (by decide)
  ⟨by decide, by decide, h.2.2 (by decide)⟩

/-- C2 as stated fails when two packages share a node key: with
`-ignorePrefix internal/` the package `internal/a` is non-excluded and imports
`b` through a literal that passes both tests, but its node key is taken over by
package `a`, processed later, and the graph has no edge from that key to `b`. -/
theorem edge_soundness_counterexample :
    samplePkg "example.com/app/internal/a" ["\"example.com/app/b\""] ∈ collidingPkgs
    ∧ ignorePgk [""] "example.com/app/internal/a" = false
    ∧ pkgKey "internal/" (samplePkg "example.com/app/internal/a" ["\"example.com/app/b\""])
        = "example.com/app/a"
    ∧ (∃ is ∈ (samplePkg "example.com/app/internal/a"
          ["\"example.com/app/b\""]).Syntax.flatten,
        ignorePgk [""] (strings.ReplaceAll is.Path.Value "\"" "") = false
        ∧ strings.Contains is.Path.Value "example.com/app" = true
        ∧ strings.ReplaceAll (strings.ReplaceAll is.Path.Value "\"" "") "internal/" ""
            = "example.com/app/b")
    ∧ hasEdge (buildImports [""] "internal/" collidingPkgs) "example.com/app/a"
        "example.com/app/b" = false
    ∧ main RangeOrder.stored "" "internal/" collidingPkgs = ["flowchart BT\n"] := by
  refine ⟨by decide, by decide, by decide, ?_, by decide, by decide⟩
  exact ⟨⟨⟨"\"example.com/app/b\""⟩⟩, by decide, by decide, by decide, by decide⟩

/-- C1, as the code has it: a non-excluded package always has an entry in the map
`imports`, but a node line is printed only for the keys of `letters.Keys`: the
node key of the package is the bracketed name of exactly one node line when that
key is the importer or the importee of at least one edge of the graph, and of no
node line when the key is in no edge.  The key is in no edge, and has no node
line, when no non-excluded package with that node key has an import that passes
the two tests and no import of a non-excluded package that passes them has that
node key as its importee key. -/
theorem node_line_iff_in_edge (σ : RangeOrder) (ignore : List String)
    (ignorePrefix : String) (pkgs : List Package) (P : Package) (hP : P ∈ pkgs)
    (hi : ignorePgk ignore P.PkgPath = false) :
    (GoMap.lookup (buildImports ignore ignorePrefix pkgs) (pkgKey ignorePrefix P)).isSome = true
    ∧ mainWith σ ignore ignorePrefix pkgs =
      "flowchart BT\n" ::
        ((edgeSeq σ (buildImports ignore ignorePrefix pkgs)).map
            (fun p => edgeLine (labelOf σ (buildImports ignore ignorePrefix pkgs) p.2)
              (labelOf σ (buildImports ignore ignorePrefix pkgs) p.1))
          ++ (nodeDecls σ (buildImports ignore ignorePrefix pkgs)).map
            (fun d => nodeLine d.2 d.1))
    ∧ (((∃ e, hasEdge (buildImports ignore ignorePrefix pkgs) (pkgKey ignorePrefix P) e = true)
        ∨ (∃ k, hasEdge (buildImports ignore ignorePrefix pkgs) k (pkgKey ignorePrefix P) = true))
      → ((nodeDecls σ (buildImports ignore ignorePrefix pkgs)).filter
          (fun d => decide (d.1 = pkgKey ignorePrefix P))).length = 1)
    ∧ (¬ ((∃ e, hasEdge (buildImports ignore ignorePrefix pkgs) (pkgKey ignorePrefix P) e = true)
        ∨ (∃ k, hasEdge (buildImports ignore ignorePrefix pkgs) k (pkgKey ignorePrefix P) = true))
      → ((nodeDecls σ (buildImports ignore ignorePrefix pkgs)).filter
          (fun d => decide (d.1 = pkgKey ignorePrefix P))).length = 0)
    ∧ ((∀ Q ∈ pkgs, ignorePgk ignore Q.PkgPath = false →
          pkgKey ignorePrefix Q = pkgKey ignorePrefix P →
          ∀ is ∈ Q.Syntax.flatten, survives ignore Q is = false)
      → (∀ Q ∈ pkgs, ignorePgk ignore Q.PkgPath = false →
          ∀ is ∈ Q.Syntax.flatten, survives ignore Q is = true →
          importKey ignorePrefix is ≠ pkgKey ignorePrefix P)
      → ((nodeDecls σ (buildImports ignore ignorePrefix pkgs)).filter
          (fun d => decide (d.1 = pkgKey ignorePrefix P))).length = 0) := by
  have hmem : pkgKey ignorePrefix P ∈ (nodeDecls σ (buildImports ignore ignorePrefix pkgs)).map
      Prod.fst ↔
      ((∃ e, hasEdge (buildImports ignore ignorePrefix pkgs) (pkgKey ignorePrefix P) e = true)
        ∨ (∃ k, hasEdge (buildImports ignore ignorePrefix pkgs) k (pkgKey ignorePrefix P)
            = true)) := by
    rw [mem_keys_nodeDecls]
    constructor
    · rintro ⟨⟨k, e⟩, hp, h | h⟩
      · left
        exact ⟨e, by rw [h]; exact (mem_edgeSeq_buildImports _ _ _ _ _ _).1 hp⟩
      · right
        exact ⟨k, by rw [h]; exact (mem_edgeSeq_buildImports _ _ _ _ _ _).1 hp⟩
    · rintro (⟨e, he⟩ | ⟨k, hk⟩)
      · exact ⟨(pkgKey ignorePrefix P, e), (mem_edgeSeq_buildImports _ _ _ _ _ _).2 he,
          Or.inl rfl⟩
      · exact ⟨(k, pkgKey ignorePrefix P), (mem_edgeSeq_buildImports _ _ _ _ _ _).2 hk,
          Or.inr rfl⟩
  have hlen := length_filter_of_nodup Prod.fst
    (nodeDecls σ (buildImports ignore ignorePrefix pkgs))
    (nodup_keys_nodeDecls σ _) (pkgKey ignorePrefix P)
  have hsrc : ∀ k e, hasEdge (buildImports ignore ignorePrefix pkgs) k e = true →
      ∃ Q ∈ pkgs, ignorePgk ignore Q.PkgPath = false ∧ pkgKey ignorePrefix Q = k
        ∧ ∃ is ∈ Q.Syntax.flatten,
            survives ignore Q is = true ∧ importKey ignorePrefix is = e := by
    intro k e he
    unfold hasEdge at he
    cases hl : GoMap.lookup (buildImports ignore ignorePrefix pkgs) k with
    | none => rw [hl] at he; cases he
    | some inner =>
      rw [hl] at he
      simp only at he
      obtain ⟨Q, hQ, hQi, hQk, rfl⟩ := lookup_buildImports_some _ _ _ _ _ hl
      exact ⟨Q, hQ, hQi, hQk, (mem_keys_importeesOf _ _ _ _).1 he⟩
  refine ⟨mem_keys_buildImports _ _ _ _ hP hi, mainWith_eq _ _ _ _, ?_, ?_, ?_⟩
  · intro h
    rw [hlen, if_pos (hmem.2 h)]
  · intro h
    rw [hlen, if_neg (fun hm => h (hmem.1 hm))]
  · intro hout hinc
    rw [hlen, if_neg]
    intro hm
    rcases hmem.1 hm with ⟨e, he⟩ | ⟨k, hk⟩
    · obtain ⟨Q, hQ, hQi, hQk, is, his, hsv, -⟩ := hsrc _ _ he
      rw [hout Q hQ hQi hQk is his] at hsv
      cases hsv
    · obtain ⟨Q, hQ, hQi, -, is, his, hsv, hkey⟩ := hsrc _ _ hk
      exact hinc Q hQ hQi is his hsv hkey

theorem node_line_iff_in_edge_witness :
    samplePkg "example.com/app/a" ["\"example.com/app/b\""] ∈ scenarioPkgs
    ∧ ignorePgk [""] "example.com/app/a" = false
    ∧ ((nodeDecls RangeOrder.stored (buildImports [""] "" scenarioPkgs)).filter
        (fun d => decide (d.1
          = pkgKey "" (samplePkg "example.com/app/a" ["\"example.com/app/b\""])))).length
      = 1
    ∧ ignorePgk ["/b"] "example.com/app/a" = false
    ∧ ((nodeDecls RangeOrder.stored (buildImports ["/b"] "" scenarioPkgs)).filter
        (fun d => decide (d.1
          = pkgKey "" (samplePkg "example.com/app/a" ["\"example.com/app/b\""])))).length
      = 0 :=
  have h := node_line_iff_in_edge RangeOrder.stored [""] "" scenarioPkgs
    (samplePkg "example.com/app/a" ["\"example.com/app/b\""]) (by decide) (by decide)
  have h0 := node_line_iff_in_edge RangeOrder.stored ["/b"] "" scenarioPkgs
    (samplePkg "example.com/app/a" ["\"example.com/app/b\""]) (by decide) (by decide)
  ⟨by decide, by decide, h.2.2.1 (Or.inl ⟨"example.com/app/b", by decide⟩), by decide,
    h0.2.2.2.2 (by decide) (by decide)⟩

/-- C1 as stated fails on the scenario of the claim: with the rule `/b`, package
`a` is not excluded, its only import is dropped, and the output is the header
alone, without a node line for `a`. -/
theorem completeness_counterexample :
    samplePkg "example.com/app/a" ["\"example.com/app/b\""] ∈ scenarioPkgs
    ∧ ignorePgk (strings.Split "/b" ",") "example.com/app/a" = false
    ∧ main RangeOrder.stored "/b" "" scenarioPkgs = ["flowchart BT\n"]
    ∧ main RangeOrder.reversed "/b" "" scenarioPkgs = ["flowchart BT\n"]
    ∧ nodeDecls RangeOrder.stored (buildImports (strings.Split "/b" ",") "" scenarioPkgs)
        = [] := by
  decide

/-- C5: the output is the header, then one line per pair visited by the edge
loops, then the node lines.  Each pair (importer, importee) of the graph is visited
exactly once and no other pair is, the line of a pair is
`label(importee) --> label(importer)`, and every inner map holds an importee key
once, however many import literals produced it. -/
theorem edge_lines_match_graph (σ : RangeOrder) (ignore : List String)
    (ignorePrefix : String) (pkgs : List Package) :
    mainWith σ ignore ignorePrefix pkgs =
      "flowchart BT\n" ::
        ((edgeSeq σ (buildImports ignore ignorePrefix pkgs)).map
            (fun p => edgeLine (labelOf σ (buildImports ignore ignorePrefix pkgs) p.2)
              (labelOf σ (buildImports ignore ignorePrefix pkgs) p.1))
          ++ (nodeDecls σ (buildImports ignore ignorePrefix pkgs)).map
            (fun d => nodeLine d.2 d.1))
    ∧ (∀ k e, ((edgeSeq σ (buildImports ignore ignorePrefix pkgs)).filter
          (fun p => decide (p = (k, e)))).length
        = if hasEdge (buildImports ignore ignorePrefix pkgs) k e = true then 1 else 0)
    ∧ (edgeSeq σ (buildImports ignore ignorePrefix pkgs)).Nodup
    ∧ (∀ a b, edgeLine a b = "\t" ++ a ++ " --> " ++ b ++ "\n")
    ∧ (∀ entry ∈ buildImports ignore ignorePrefix pkgs, (entry.2.map Prod.fst).Nodup)
    ∧ ((buildImports ignore ignorePrefix pkgs).map Prod.fst).Nodup :=
  ⟨mainWith_eq _ _ _ _,
    count_edgeSeq σ _ (nodup_keys_buildImports _ _ _) (nodup_inner_buildImports _ _ _),
    nodup_edgeSeq σ _ (nodup_keys_buildImports _ _ _) (nodup_inner_buildImports _ _ _),
    fun _ _ => rfl,
    nodup_inner_buildImports _ _ _,
    nodup_keys_buildImports _ _ _⟩

/-! ## A package with many imports -/

theorem importKey_wideImport (i : Nat) : importKey "" (wideImport i) = wideKey i := by
  unfold importKey
  rw [ReplaceAll_empty]
  apply String.ext
  rw [data_unquote]
  simp [wideImport, wideKey, List.filter_cons, List.filter_append, List.filter_replicate]

theorem survives_wideImport (n i : Nat) : survives [""] (widePkg n) (wideImport i) = true := by
  rw [survives_eq_true_iff]
  constructor
  · simp [ignorePgk]
  · simp [strings.Contains, strings.containsChars, wideImport, widePkg, List.isPrefixOf]

theorem wideKey_injective : Function.Injective wideKey := by
  intro i j h
  have h2 := congrArg (fun s : String => s.data.length) h
  simpa [wideKey] using h2

theorem wideKey_mem_nodeDecls (σ : RangeOrder) (n i : Nat) (hi : i < n) :
    wideKey i ∈ (nodeDecls σ (buildImports [""] "" [widePkg n])).map Prod.fst := by
  rw [mem_keys_nodeDecls]
  refine ⟨(pkgKey "" (widePkg n), wideKey i), ?_, Or.inr rfl⟩
  rw [mem_edgeSeq_buildImports]
  unfold hasEdge
  have hl := lookup_buildImports_last [""] "" [] [] (widePkg n) (by simp [ignorePgk])
    (by simp)
  rw [List.nil_append] at hl
  rw [hl]
  simp only
  rw [mem_keys_importeesOf]
  refine ⟨wideImport i, ?_, survives_wideImport n i, importKey_wideImport i⟩
  simp only [widePkg, List.flatten_cons, List.flatten_nil, List.append_nil]
  exact List.mem_map.2 ⟨i, List.mem_range.2 hi, rfl⟩

theorem length_nodeDecls_widePkg (σ : RangeOrder) (n : Nat) :
    n ≤ (nodeDecls σ (buildImports [""] "" [widePkg n])).length := by
  have hnd : ((List.range n).map wideKey).Nodup :=
    List.Nodup.map wideKey_injective (List.nodup_range n)
  have hsub : (List.range n).map wideKey
      ⊆ (nodeDecls σ (buildImports [""] "" [widePkg n])).map Prod.fst := by
    intro k hk
    obtain ⟨i, hi, rfl⟩ := List.mem_map.1 hk
    exact wideKey_mem_nodeDecls σ n i (List.mem_range.1 hi)
  have := (List.subperm_of_subset hnd hsub).length_le
  simpa using this

theorem Letters.WF.labels_not_nodup {l : Letters} (h : l.WF) (hb : 55233 ≤ l.Keys.length) :
    ¬ (l.Keys.map Prod.snd).Nodup := by
  intro hnd
  rw [h.labels_eq] at hnd
  have he : intstring (65 + ((55231 : Nat) : Int)) = intstring (65 + ((55232 : Nat) : Int)) := by
    rw [intstring_surrogate _ (by norm_num) (by norm_num),
      intstring_surrogate _ (by norm_num) (by norm_num)]
  have := List.inj_on_of_nodup_map hnd (List.mem_range.2 (show 55231 < l.Keys.length by omega))
    (List.mem_range.2 (show 55232 < l.Keys.length by omega)) he
  omega

/-- C4, as the code has it: the output is the header, the edge lines, then the
node lines.  The node lines are in one-to-one correspondence with the node keys
that are importer or importee of a visited edge: no key has two node lines, a key
has a node line exactly when it is in an edge, and its node line carries the label
used for it in the edge lines.  When at most 55232 node keys are in edges, no label
is declared by two node lines. -/
theorem node_lines_match_edge_keys (σ : RangeOrder) (ignore : List String)
    (ignorePrefix : String) (pkgs : List Package) :
    mainWith σ ignore ignorePrefix pkgs =
      "flowchart BT\n" ::
        ((edgeSeq σ (buildImports ignore ignorePrefix pkgs)).map
            (fun p => edgeLine (labelOf σ (buildImports ignore ignorePrefix pkgs) p.2)
              (labelOf σ (buildImports ignore ignorePrefix pkgs) p.1))
          ++ (nodeDecls σ (buildImports ignore ignorePrefix pkgs)).map
            (fun d => nodeLine d.2 d.1))
    ∧ ((nodeDecls σ (buildImports ignore ignorePrefix pkgs)).map Prod.fst).Nodup
    ∧ (∀ k, k ∈ (nodeDecls σ (buildImports ignore ignorePrefix pkgs)).map Prod.fst ↔
        ((∃ e, hasEdge (buildImports ignore ignorePrefix pkgs) k e = true)
          ∨ (∃ k0, hasEdge (buildImports ignore ignorePrefix pkgs) k0 k = true)))
    ∧ (∀ d ∈ nodeDecls σ (buildImports ignore ignorePrefix pkgs),
        d.2 = labelOf σ (buildImports ignore ignorePrefix pkgs) d.1)
    ∧ (∀ a b, nodeLine a b = "\t" ++ a ++ "[" ++ b ++ "]\n")
    ∧ ((nodeDecls σ (buildImports ignore ignorePrefix pkgs)).length ≤ 55232 →
        ((nodeDecls σ (buildImports ignore ignorePrefix pkgs)).map Prod.snd).Nodup) := by
  refine ⟨mainWith_eq _ _ _ _, nodup_keys_nodeDecls σ _, ?_, label_of_mem_nodeDecls σ _,
    fun _ _ => rfl, nodup_labels_nodeDecls σ _⟩
  intro k
  rw [mem_keys_nodeDecls]
  constructor
  · rintro ⟨⟨k1, e⟩, hp, h | h⟩
    · left
      exact ⟨e, by rw [h]; exact (mem_edgeSeq_buildImports _ _ _ _ _ _).1 hp⟩
    · right
      exact ⟨k1, by rw [h]; exact (mem_edgeSeq_buildImports _ _ _ _ _ _).1 hp⟩
  · rintro (⟨e, he⟩ | ⟨k1, hk⟩)
    · exact ⟨(k, e), (mem_edgeSeq_buildImports _ _ _ _ _ _).2 he, Or.inl rfl⟩
    · exact ⟨(k1, k), (mem_edgeSeq_buildImports _ _ _ _ _ _).2 hk, Or.inr rfl⟩

theorem node_lines_match_edge_keys_witness :
    (nodeDecls RangeOrder.stored (buildImports [""] "" scenarioPkgs)).length ≤ 55232
    ∧ mainWith RangeOrder.stored [""] "" scenarioPkgs =
        ["flowchart BT\n", "\tA --> B\n", "\tA[example.com/app/b]\n",
          "\tB[example.com/app/a]\n"]
    ∧ ((nodeDecls RangeOrder.stored (buildImports [""] "" scenarioPkgs)).map Prod.snd).Nodup :=
  ⟨by decide, by decide,
    (node_lines_match_edge_keys RangeOrder.stored [""] "" scenarioPkgs).2.2.2.2.2 (by decide)⟩

/-- C4 as stated fails on a graph with more than 55232 node keys: for the package
`m/p` with 55233 distinct module-internal imports, run with the default flags, the
node lines of the output do not declare every label once: some label is declared
by two of them. -/
theorem node_labels_counterexample :
    main RangeOrder.stored "" "" [widePkg 55233] =
      "flowchart BT\n" ::
        ((edgeSeq RangeOrder.stored (buildImports [""] "" [widePkg 55233])).map
            (fun p => edgeLine
              (labelOf RangeOrder.stored (buildImports [""] "" [widePkg 55233]) p.2)
              (labelOf RangeOrder.stored (buildImports [""] "" [widePkg 55233]) p.1))
          ++ (nodeDecls RangeOrder.stored (buildImports [""] "" [widePkg 55233])).map
            (fun d => nodeLine d.2 d.1))
    ∧ ¬ ((nodeDecls RangeOrder.stored
          (buildImports [""] "" [widePkg 55233])).map Prod.snd).Nodup := by
  have hsplit : strings.Split "" "," = [""] := Split_commas 0
  constructor
  · unfold main
    rw [hsplit]
    exact mainWith_eq _ _ _ _
  · rw [((nodeDecls_perm RangeOrder.stored _).map Prod.snd).nodup_iff]
    apply (WF_finalLetters RangeOrder.stored _).labels_not_nodup
    rw [← (nodeDecls_perm RangeOrder.stored _).length_eq]
    exact length_nodeDecls_widePkg RangeOrder.stored 55233

/-! ## Prefix stripping -/

theorem replaceChars_skip (old new l b : List Char) :
    strings.replaceChars old new l.length (l ++ b) = strings.replaceChars old new 0 b := by
  induction l with
  | nil => rfl
  | cons x l ih =>
    rw [List.length_cons, List.cons_append, strings.replaceChars]
    exact ih

theorem replaceChars_self_append (old b : List Char) (h : old ≠ []) :
    strings.replaceChars old [] 0 (old ++ b) = strings.replaceChars old [] 0 b := by
  obtain ⟨c, t, rfl⟩ := List.exists_cons_of_ne_nil h
  rw [List.cons_append, strings.replaceChars,
    if_pos (by
      rw [← List.cons_append, List.isPrefixOf_iff_prefix]
      exact List.prefix_append _ _)]
  simp only [List.length_cons, Nat.add_sub_cancel, List.nil_append]
  exact replaceChars_skip _ _ _ _

/-- An occurrence of `old` that starts inside `a` lies inside `a` followed by all
but the last character of `old`. -/
theorem not_prefix_of_first (old a b : List Char) (x : Char) (h : old ≠ [])
    (hfirst : ¬ old <:+: (x :: a) ++ old.dropLast) :
    ¬ old <+: (x :: a) ++ old ++ b := by
  intro hp
  apply hfirst
  have h1 : (x :: a) ++ old.dropLast <+: (x :: a) ++ old ++ b := by
    have h2 : (x :: a) ++ old ++ b
        = ((x :: a) ++ old.dropLast) ++ ([old.getLast h] ++ b) := by
      conv_lhs => rw [← List.dropLast_append_getLast h]
      simp only [List.append_assoc]
    rw [h2]
    exact List.prefix_append _ _
  have h3 : old.length ≤ ((x :: a) ++ old.dropLast).length := by
    have := List.length_dropLast old
    have h4 : 0 < old.length := List.length_pos.2 h
    simp only [List.length_append, List.length_cons]
    omega
  exact (List.prefix_of_prefix_length_le hp h1 h3).isInfix

theorem replaceChars_first (old a b : List Char) (h : old ≠ [])
    (hfirst : ¬ old <:+: a ++ old.dropLast) :
    strings.replaceChars old [] 0 (a ++ old ++ b) = a ++ strings.replaceChars old [] 0 b := by
  induction a with
  | nil =>
    rw [List.nil_append, List.nil_append]
    exact replaceChars_self_append old b h
  | cons x a ih =>
    have hnp := not_prefix_of_first old a b x h hfirst
    have hcons : (x :: a) ++ old ++ b = x :: (a ++ old ++ b) := rfl
    rw [hcons] at hnp ⊢
    rw [strings.replaceChars, if_neg (by rwa [List.isPrefixOf_iff_prefix]),
      ih (fun hi => hfirst (by
        rw [List.cons_append]
        exact List.infix_cons hi))]
    rfl

theorem removeFirstChars_first (old a b : List Char) (h : old ≠ [])
    (hfirst : ¬ old <:+: a ++ old.dropLast) :
    removeFirstChars old (a ++ old ++ b) = a ++ b := by
  induction a with
  | nil =>
    obtain ⟨c, t, rfl⟩ := List.exists_cons_of_ne_nil h
    rw [List.nil_append, List.nil_append, List.cons_append, removeFirstChars,
      if_pos (by
        rw [← List.cons_append, List.isPrefixOf_iff_prefix]
        exact List.prefix_append _ _),
      ← List.cons_append, List.drop_left]
  | cons x a ih =>
    have hnp := not_prefix_of_first old a b x h hfirst
    have hcons : (x :: a) ++ old ++ b = x :: (a ++ old ++ b) := rfl
    rw [hcons] at hnp ⊢
    rw [removeFirstChars, if_neg (by rwa [List.isPrefixOf_iff_prefix]),
      ih (fun hi => hfirst (by
        rw [List.cons_append]
        exact List.infix_cons hi))]
    rfl

theorem replaceChars_of_not_infix (old s : List Char) (h : ¬ old <:+: s) :
    strings.replaceChars old [] 0 s = s := by
  induction s with
  | nil => rfl
  | cons c t ih =>
    rw [List.infix_cons_iff, not_or] at h
    rw [strings.replaceChars, if_neg (by rw [List.isPrefixOf_iff_prefix]; exact h.1), ih h.2]

theorem length_replaceChars_le (old : List Char) (k : Nat) (s : List Char) :
    (strings.replaceChars old [] k s).length ≤ s.length := by
  induction s generalizing k with
  | nil => cases k <;> simp [strings.replaceChars]
  | cons c t ih =>
    cases k with
    | succ k =>
      rw [strings.replaceChars, List.length_cons]
      exact Nat.le_succ_of_le (ih k)
    | zero =>
      rw [strings.replaceChars]
      split
      · rw [List.nil_append, List.length_cons]
        exact Nat.le_succ_of_le (ih _)
      · rw [List.length_cons, List.length_cons]
        exact Nat.succ_le_succ (ih 0)

theorem length_replaceChars_lt (old s : List Char) (h : old ≠ []) (hin : old <:+: s) :
    (strings.replaceChars old [] 0 s).length < s.length := by
  induction s with
  | nil => exact absurd (List.infix_nil.1 hin) h
  | cons c t ih =>
    rw [strings.replaceChars]
    split
    · rw [List.nil_append, List.length_cons]
      exact Nat.lt_succ_of_le (length_replaceChars_le _ _ _)
    · rename_i hnp
      rw [List.isPrefixOf_iff_prefix] at hnp
      rcases List.infix_cons_iff.1 hin with hp | hi
      · exact absurd hp hnp
      · rw [List.length_cons, List.length_cons]
        exact Nat.succ_lt_succ (ih hi)

theorem ReplaceAll_data_of_ne (s old : String) (h : old.data ≠ []) :
    (strings.ReplaceAll s old "").data = strings.replaceChars old.data [] 0 s.data := by
  unfold strings.ReplaceAll
  rw [if_neg h]

theorem ReplaceAll_of_data_eq_nil (s old : String) (h : old.data = []) :
    strings.ReplaceAll s old "" = s := by
  have : old = "" := String.ext h
  rw [this]
  exact ReplaceAll_empty s

/-- Stripping changes nothing exactly when the string to strip is empty or does
not occur. -/
theorem ReplaceAll_eq_self_iff (s old : String) :
    strings.ReplaceAll s old "" = s ↔ (old.data = [] ∨ ¬ old.data <:+: s.data) := by
  by_cases h : old.data = []
  · simp [h, ReplaceAll_of_data_eq_nil s old h]
  · constructor
    · intro he
      right
      intro hin
      have hlt := length_replaceChars_lt old.data s.data h hin
      rw [← ReplaceAll_data_of_ne s old h, he] at hlt
      exact Nat.lt_irrefl _ hlt
    · rintro (h1 | h1)
      · exact absurd h1 h
      · apply String.ext
        rw [ReplaceAll_data_of_ne s old h]
        exact replaceChars_of_not_infix _ _ h1

theorem removeFirstChars_of_not_infix (old s : List Char) (h : ¬ old <:+: s) :
    removeFirstChars old s = s := by
  induction s with
  | nil => rfl
  | cons c t ih =>
    rw [List.infix_cons_iff, not_or] at h
    rw [removeFirstChars, if_neg (by rw [List.isPrefixOf_iff_prefix]; exact h.1), ih h.2]

/-- C11: the code does not keep the later occurrences of the prefix-strip string.
For module `m`, package path `m/x/m/y` and `-ignorePrefix m/`, lines 70 and 92
compute the node key `x/y` for the package and for an import of it, whereas
removing only the first occurrence, here the leading prefix that the usage text of
the flag speaks of, gives `x/m/y`; the key `x/y` is what the output shows. -/
theorem prefix_strip_code_bug :
    pkgKey "m/" { PkgPath := "m/x/m/y", Name := "y", Module := ⟨"m"⟩, Syntax := [[]] }
        = "x/y"
    ∧ importKey "m/" ⟨⟨"\"m/x/m/y\""⟩⟩ = "x/y"
    ∧ removeFirst "m/x/m/y" "m/" = "x/m/y"
    ∧ pkgKey "m/" { PkgPath := "m/x/m/y", Name := "y", Module := ⟨"m"⟩, Syntax := [[]] }
        ≠ removeFirst "m/x/m/y" "m/"
    ∧ main RangeOrder.stored "" "m/"
        [{ PkgPath := "m/z", Name := "z", Module := ⟨"m"⟩,
           Syntax := [[⟨⟨"\"m/x/m/y\""⟩⟩]] },
         { PkgPath := "m/x/m/y", Name := "y", Module := ⟨"m"⟩, Syntax := [[]] }]
      = ["flowchart BT\n", "\tA --> B\n", "\tA[x/y]\n", "\tB[z]\n"] := by
  decide

/-- C12: with the empty prefix-strip string, `strings.ReplaceAll(s, "", "")` is
`s`; the node key of a package is its path, followed by `/MAIN` when the package
name is `main`, and the importee key of an import is its unquoted path. -/
theorem empty_prefix_keeps_paths (s : String) (pkg : Package) (is : ImportSpec) :
    strings.ReplaceAll s "" "" = s
    ∧ pkgKey "" pkg = (if pkg.Name = "main" then pkg.PkgPath ++ "/MAIN" else pkg.PkgPath)
    ∧ importKey "" is = strings.ReplaceAll is.Path.Value "\"" "" := by
  refine ⟨ReplaceAll_empty s, ?_, ?_⟩
  · unfold pkgKey
    simp only
    rw [ReplaceAll_empty]
  · unfold importKey
    rw [ReplaceAll_empty]

/-- C13, as the code has it: stripping an already stripped key changes nothing
exactly when the prefix-strip string is empty or does not occur in the stripped
key; this is the case when the string does not occur in the path at all. -/
theorem strip_idempotent_iff (s p : String) :
    (strings.ReplaceAll (strings.ReplaceAll s p "") p "" = strings.ReplaceAll s p "" ↔
      (p.data = [] ∨ ¬ p.data <:+: (strings.ReplaceAll s p "").data))
    ∧ (p = "" → strings.ReplaceAll (strings.ReplaceAll s p "") p "" = strings.ReplaceAll s p "")
    ∧ (¬ p.data <:+: s.data →
        strings.ReplaceAll (strings.ReplaceAll s p "") p "" = strings.ReplaceAll s p "") := by
  refine ⟨ReplaceAll_eq_self_iff _ _, ?_, ?_⟩
  · intro h
    exact (ReplaceAll_eq_self_iff _ _).2 (Or.inl (by rw [h]))
  · intro h
    have h1 := (ReplaceAll_eq_self_iff s p).2 (Or.inr h)
    rw [h1]
    exact h1

/-- C13 as stated fails: removing `internal/` from
`example.com/app/inteinternal/rnal/a` joins the two halves of a new occurrence, so
a second application changes the key again. -/
theorem strip_idempotent_counterexample :
    strings.ReplaceAll "example.com/app/inteinternal/rnal/a" "internal/" ""
        = "example.com/app/internal/a"
    ∧ strings.ReplaceAll
        (strings.ReplaceAll "example.com/app/inteinternal/rnal/a" "internal/" "")
        "internal/" "" = "example.com/app/a"
    ∧ strings.ReplaceAll
        (strings.ReplaceAll "example.com/app/inteinternal/rnal/a" "internal/" "")
        "internal/" ""
      ≠ strings.ReplaceAll "example.com/app/inteinternal/rnal/a" "internal/" "" := by
  decide

/-! ## Node keys of importers and importees -/

/-- C14: a non-excluded package has an entry in `imports` under its node key.  For
a package named `main` the key is the prefix-stripped path followed by `/MAIN`,
so it ends in `/MAIN` whatever the prefix-strip string is; for every other package
it is the prefix-stripped path.  One pass of the package loop writes the inner map
of the package under exactly this key. -/
theorem entry_point_marker (ignore : List String) (p : String) (pkgs : List Package)
    (P : Package) (m : GoMap (GoMap Bool)) (hP : P ∈ pkgs)
    (hi : ignorePgk ignore P.PkgPath = false) :
    (GoMap.lookup (buildImports ignore p pkgs) (pkgKey p P)).isSome = true
    ∧ loadPkg ignore p m P = GoMap.assign m (pkgKey p P) (importeesOf ignore p P)
    ∧ (P.Name = "main" →
        pkgKey p P = strings.ReplaceAll P.PkgPath p "" ++ "/MAIN"
        ∧ ("/MAIN" : String).data <:+ (pkgKey p P).data)
    ∧ (P.Name ≠ "main" → pkgKey p P = strings.ReplaceAll P.PkgPath p "") := by
  refine ⟨mem_keys_buildImports ignore p pkgs P hP hi, ?_, ?_, ?_⟩
  · rw [loadPkg_eq, hi]
    rfl
  · intro h
    have hk : pkgKey p P = strings.ReplaceAll P.PkgPath p "" ++ "/MAIN" := by
      simp [pkgKey, h]
    refine ⟨hk, ?_⟩
    rw [hk, String.data_append]
    exact List.suffix_append _ _
  · intro h
    simp [pkgKey, h]

theorem entry_point_marker_witness :
    mainPkg "example.com/app/cmd/MAIN/tool" [] ∈ [mainPkg "example.com/app/cmd/MAIN/tool" []]
    ∧ ignorePgk [""] "example.com/app/cmd/MAIN/tool" = false
    ∧ pkgKey "/MAIN" (mainPkg "example.com/app/cmd/MAIN/tool" []) = "example.com/app/cmd/tool/MAIN"
    ∧ ("/MAIN" : String).data
        <:+ (pkgKey "/MAIN" (mainPkg "example.com/app/cmd/MAIN/tool" [])).data :=
  have h := entry_point_marker [""] "/MAIN" [mainPkg "example.com/app/cmd/MAIN/tool" []]
    (mainPkg "example.com/app/cmd/MAIN/tool" []) [] (by decide) (by decide)
  ⟨by decide, by decide, by decide, (h.2.2.1 rfl).2⟩

/-- C15, as the code has it: for a package whose name is not `main`, the node key
used for it as an importer equals the importee key of every import whose unquoted
path is the package path, such as the literal made of the path between two quotes
when the path has no quote in it.  For a package named `main` the importer key is
that importee key followed by `/MAIN`. -/
theorem importer_key_eq_importee_key (p : String) (P : Package) (is : ImportSpec)
    (his : strings.ReplaceAll is.Path.Value "\"" "" = P.PkgPath) :
    (P.Name ≠ "main" → pkgKey p P = importKey p is)
    ∧ (P.Name = "main" → pkgKey p P = importKey p is ++ "/MAIN")
    ∧ ('"' ∉ P.PkgPath.data →
        strings.ReplaceAll ⟨'"' :: (P.PkgPath.data ++ ['"'])⟩ "\"" "" = P.PkgPath) := by
  refine ⟨?_, ?_, ?_⟩
  · intro h
    simp [pkgKey, importKey, h, his]
  · intro h
    simp [pkgKey, importKey, h, his]
  · intro hq
    apply String.ext
    rw [data_unquote]
    have hf : P.PkgPath.data.filter (fun x => x != '"') = P.PkgPath.data := by
      rw [List.filter_eq_self]
      intro a ha
      have : a ≠ '"' := fun hh => hq (hh ▸ ha)
      simpa using this
    simp [List.filter_cons, List.filter_append, hf]

theorem importer_key_eq_importee_key_witness :
    strings.ReplaceAll "\"example.com/app/internal/a\"" "\"" "" = "example.com/app/internal/a"
    ∧ pkgKey "internal/" (samplePkg "example.com/app/internal/a" [])
      = importKey "internal/" ⟨⟨"\"example.com/app/internal/a\""⟩⟩ :=
  ⟨by decide,
    (importer_key_eq_importee_key "internal/" (samplePkg "example.com/app/internal/a" [])
      ⟨⟨"\"example.com/app/internal/a\""⟩⟩ (by decide)).1 (by decide)⟩

/-- C15 as stated fails for a package named `main`: as an importer
`example.com/app/cmd` has the node key `example.com/app/cmd/MAIN`, while an import
of the same path has the importee key `example.com/app/cmd`. -/
theorem importer_key_counterexample :
    (mainPkg "example.com/app/cmd" []).PkgPath = "example.com/app/cmd"
    ∧ pkgKey "" (mainPkg "example.com/app/cmd" []) = "example.com/app/cmd/MAIN"
    ∧ importKey "" ⟨⟨"\"example.com/app/cmd\""⟩⟩ = "example.com/app/cmd"
    ∧ pkgKey "" (mainPkg "example.com/app/cmd" []) ≠ importKey "" ⟨⟨"\"example.com/app/cmd\""⟩⟩
    ∧ main RangeOrder.stored "" ""
        [mainPkg "example.com/app/cmd" [],
         samplePkg "example.com/app/a" ["\"example.com/app/cmd\""]]
      = ["flowchart BT\n", "\tA --> B\n", "\tA[example.com/app/cmd]\n",
          "\tB[example.com/app/a]\n"] := by
  decide

/-! ## The example scenario -/

theorem eq_singleton_of_nodup {α : Type} {l : List α} {v : α} (hnd : l.Nodup)
    (h : ∀ x, x ∈ l ↔ x = v) : l = [v] := by
  apply List.perm_singleton.1
  rw [List.perm_ext_iff_of_nodup hnd (List.nodup_singleton v)]
  intro x
  rw [h x, List.mem_singleton]

/-- The output for any graph whose only edge is `a -> b` of the scenario. -/
theorem printGraph_scenario (σ : RangeOrder) (g : GoMap (GoMap Bool))
    (hk : (g.map Prod.fst).Nodup) (hin : ∀ entry ∈ g, (entry.2.map Prod.fst).Nodup)
    (hedge : ∀ k e, hasEdge g k e = true ↔
      (k, e) = ("example.com/app/a", "example.com/app/b")) :
    ∃ nodes, printGraph σ g = "flowchart BT\n" :: "\tA --> B\n" :: nodes
      ∧ nodes.Perm ["\tA[example.com/app/b]\n", "\tB[example.com/app/a]\n"] := by
  have hseq : edgeSeq σ g = [("example.com/app/a", "example.com/app/b")] := by
    apply eq_singleton_of_nodup (nodup_edgeSeq σ g hk hin)
    rintro ⟨k, e⟩
    rw [mem_edgeSeq σ g hk, hedge]
  have hfin : finalLetters σ g
      = { current := 66,
          Keys := [("example.com/app/b", "A"), ("example.com/app/a", "B")] } := by
    rw [finalLetters_eq, hseq]
    decide
  have hlb : labelOf σ g "example.com/app/b" = "A" := by
    unfold labelOf
    rw [hfin]
    decide
  have hla : labelOf σ g "example.com/app/a" = "B" := by
    unfold labelOf
    rw [hfin]
    decide
  refine ⟨(nodeDecls σ g).map (fun d => nodeLine d.2 d.1), ?_, ?_⟩
  · rw [printGraph_eq, hseq]
    simp only [List.map_cons, List.map_nil, hlb, hla, List.singleton_append]
    rfl
  · have hp := (nodeDecls_perm σ g).map (fun d : String × String => nodeLine d.2 d.1)
    rw [hfin] at hp
    exact hp

/-- C16: for the two packages of the scenario, with the default flags, the output
is the header, the single edge line `A --> B` and the two node lines `A[...b]`
and `B[...a]` (in the order in which the map of labels is ranged over), for every
iteration order of the maps and for both orders of the two packages. -/
theorem scenario_output (σ : RangeOrder) :
    (∃ nodes, main σ "" "" scenarioPkgs = "flowchart BT\n" :: "\tA --> B\n" :: nodes
      ∧ nodes.Perm ["\tA[example.com/app/b]\n", "\tB[example.com/app/a]\n"])
    ∧ (∃ nodes, main σ "" "" scenarioPkgs.reverse
          = "flowchart BT\n" :: "\tA --> B\n" :: nodes
      ∧ nodes.Perm ["\tA[example.com/app/b]\n", "\tB[example.com/app/a]\n"])
    ∧ scenarioPkgs =
        [{ PkgPath := "example.com/app/a", Name := "p", Module := ⟨"example.com/app"⟩,
           Syntax := [[⟨⟨"\"example.com/app/b\""⟩⟩]] },
         { PkgPath := "example.com/app/b", Name := "p", Module := ⟨"example.com/app"⟩,
           Syntax := [[]] }] := by
  have hsplit : strings.Split "" "," = [""] := Split_commas 0
  refine ⟨?_, ?_, rfl⟩
  · unfold main mainWith
    rw [hsplit]
    apply printGraph_scenario σ _ (nodup_keys_buildImports _ _ _)
      (nodup_inner_buildImports _ _ _)
    have hg : buildImports [""] "" scenarioPkgs
        = [("example.com/app/a", [("example.com/app/b", true)]), ("example.com/app/b", [])] := by
      decide
    rw [hg]
    intro k e
    simp only [hasEdge, GoMap.lookup, Prod.mk.injEq]
    by_cases h1 : "example.com/app/a" = k
    · subst h1
      by_cases h2 : "example.com/app/b" = e
      · subst h2
        simp [GoMap.lookup]
      · simp [GoMap.lookup, h2, Ne.symm h2]
    · by_cases h3 : "example.com/app/b" = k
      · subst h3
        simp [GoMap.lookup]
      · simp [GoMap.lookup, h1, h3, Ne.symm h1]
  · unfold main mainWith
    rw [hsplit]
    apply printGraph_scenario σ _ (nodup_keys_buildImports _ _ _)
      (nodup_inner_buildImports _ _ _)
    have hg : buildImports [""] "" scenarioPkgs.reverse
        = [("example.com/app/b", []), ("example.com/app/a", [("example.com/app/b", true)])] := by
      decide
    rw [hg]
    intro k e
    simp only [hasEdge, GoMap.lookup, Prod.mk.injEq]
    by_cases h1 : "example.com/app/a" = k
    · subst h1
      by_cases h2 : "example.com/app/b" = e
      · subst h2
        simp [GoMap.lookup]
      · simp [GoMap.lookup, h2, Ne.symm h2]
    · by_cases h3 : "example.com/app/b" = k
      · subst h3
        simp [GoMap.lookup]
      · simp [GoMap.lookup, h1, h3, Ne.symm h1]

/-! ## Header, self-edges, key collisions, the counter -/

/-- C17, as the code has it: for every input the first string written is the
header `flowchart BT`, the same for all inputs; its keyword `BT` declares a
bottom-to-top flowchart. -/
theorem header_line (σ : RangeOrder) (ignoreString ignorePrefix : String)
    (pkgs : List Package) :
    (main σ ignoreString ignorePrefix pkgs).head? = some "flowchart BT\n"
    ∧ headerDirection "flowchart BT\n" = some Direction.bottomToTop := by
  constructor
  · unfold main
    rw [mainWith_eq]
    rfl
  · decide

/-- C17 as stated fails: the header of the scenario output is `flowchart BT`,
which is neither of the two top-to-bottom headers and declares the bottom-to-top
orientation. -/
theorem header_direction_counterexample :
    (main RangeOrder.stored "" "" scenarioPkgs).head? = some "flowchart BT\n"
    ∧ "flowchart BT\n" ≠ "flowchart TB\n"
    ∧ "flowchart BT\n" ≠ "flowchart TD\n"
    ∧ headerDirection "flowchart BT\n" ≠ some Direction.topToBottom := by
  decide

/-- C18, as the code has it: for a non-excluded package that is not named `main`
and is the last one processed under its node key `k`, an import whose unquoted
path is the package's own path and whose literal contains the module path yields
the edge `k -> k`; the edge loops visit it, the output has the edge line with the
label of `k` on both sides and exactly one node line for `k`. -/
theorem self_edge_preserved (σ : RangeOrder) (ignore : List String) (p : String)
    (pre post : List Package) (P : Package) (is : ImportSpec)
    (hi : ignorePgk ignore P.PkgPath = false) (hn : P.Name ≠ "main")
    (hpost : ∀ Q ∈ post, ignorePgk ignore Q.PkgPath = true ∨ pkgKey p Q ≠ pkgKey p P)
    (hmem : is ∈ P.Syntax.flatten)
    (his : strings.ReplaceAll is.Path.Value "\"" "" = P.PkgPath)
    (hmod : strings.Contains is.Path.Value P.Module.Path = true) :
    hasEdge (buildImports ignore p (pre ++ P :: post)) (pkgKey p P) (pkgKey p P) = true
    ∧ (pkgKey p P, pkgKey p P) ∈ edgeSeq σ (buildImports ignore p (pre ++ P :: post))
    ∧ edgeLine (labelOf σ (buildImports ignore p (pre ++ P :: post)) (pkgKey p P))
          (labelOf σ (buildImports ignore p (pre ++ P :: post)) (pkgKey p P))
        ∈ mainWith σ ignore p (pre ++ P :: post)
    ∧ nodeLine (labelOf σ (buildImports ignore p (pre ++ P :: post)) (pkgKey p P))
          (pkgKey p P)
        ∈ mainWith σ ignore p (pre ++ P :: post)
    ∧ ((nodeDecls σ (buildImports ignore p (pre ++ P :: post))).filter
        (fun d => decide (d.1 = pkgKey p P))).length = 1 := by
  have hkey : importKey p is = pkgKey p P := by
    simp [pkgKey, importKey, hn, his]
  have hedge : hasEdge (buildImports ignore p (pre ++ P :: post)) (pkgKey p P) (pkgKey p P)
      = true := by
    unfold hasEdge
    rw [lookup_buildImports_last ignore p pre post P hi hpost]
    simp only
    rw [mem_keys_importeesOf]
    exact ⟨is, hmem, (survives_eq_true_iff _ _ _).2 ⟨by rw [his]; exact hi, hmod⟩, hkey⟩
  have hseq := (mem_edgeSeq_buildImports σ ignore p (pre ++ P :: post) _ _).2 hedge
  have hnode : pkgKey p P ∈ (nodeDecls σ (buildImports ignore p (pre ++ P :: post))).map
      Prod.fst := (mem_keys_nodeDecls σ _ _).2 ⟨_, hseq, Or.inl rfl⟩
  refine ⟨hedge, hseq, ?_, ?_, ?_⟩
  · rw [mainWith_eq]
    apply List.mem_cons_of_mem
    apply List.mem_append_left
    exact List.mem_map.2 ⟨(pkgKey p P, pkgKey p P), hseq, rfl⟩
  · rw [mainWith_eq]
    apply List.mem_cons_of_mem
    apply List.mem_append_right
    obtain ⟨d, hd, hd1⟩ := List.mem_map.1 hnode
    refine List.mem_map.2 ⟨d, hd, ?_⟩
    rw [label_of_mem_nodeDecls σ _ d hd, hd1]
  · rw [length_filter_of_nodup Prod.fst _ (nodup_keys_nodeDecls σ _) (pkgKey p P),
      if_pos hnode]

theorem self_edge_preserved_witness :
    ignorePgk [""] "example.com/app/a" = false
    ∧ mainWith RangeOrder.stored [""] ""
        ([] ++ samplePkg "example.com/app/a" ["\"example.com/app/a\""] :: [])
      = ["flowchart BT\n", "\tA --> A\n", "\tA[example.com/app/a]\n"]
    ∧ hasEdge (buildImports [""] ""
          ([] ++ samplePkg "example.com/app/a" ["\"example.com/app/a\""] :: []))
        (pkgKey "" (samplePkg "example.com/app/a" ["\"example.com/app/a\""]))
        (pkgKey "" (samplePkg "example.com/app/a" ["\"example.com/app/a\""])) = true :=
  ⟨by decide, by decide,
    (self_edge_preserved RangeOrder.stored [""] "" [] []
      (samplePkg "example.com/app/a" ["\"example.com/app/a\""])
      ⟨⟨"\"example.com/app/a\""⟩⟩ (by decide) (by decide) (by decide) (by decide)
      (by decide) (by decide)).1⟩

/-- C18 as stated fails when a later package takes over the node key: with
`-ignorePrefix internal/`, package `internal/a` imports itself through a literal
that contains the module path, but package `a`, processed after it, gets the same
node key, and the self-edge is gone from the graph and from the output. -/
theorem self_edge_counterexample :
    samplePkg "example.com/app/internal/a" ["\"example.com/app/internal/a\""]
        ∈ selfImportPkgs
    ∧ ignorePgk [""] "example.com/app/internal/a" = false
    ∧ strings.Contains "\"example.com/app/internal/a\"" "example.com/app" = true
    ∧ pkgKey "internal/"
        (samplePkg "example.com/app/internal/a" ["\"example.com/app/internal/a\""])
        = "example.com/app/a"
    ∧ hasEdge (buildImports [""] "internal/" selfImportPkgs) "example.com/app/a"
        "example.com/app/a" = false
    ∧ main RangeOrder.stored "" "internal/" selfImportPkgs = ["flowchart BT\n"] := by
  decide

/-- C19: when a non-excluded package `P` is the last one processed under its node
key `k`, the inner map stored for `k` is the map built from the imports of `P`
alone, whatever packages were processed under `k` before: its keys are exactly the
prefix-stripped forms of the imports of `P` that pass both tests.  One pass of the
package loop for `P` leaves under `k` the same inner map for every previous content
of `imports`. -/
theorem collision_last_package_wins (ignore : List String) (p : String)
    (pre post : List Package) (P : Package) (m : GoMap (GoMap Bool)) (e : String)
    (hP : ignorePgk ignore P.PkgPath = false)
    (hpost : ∀ Q ∈ post, ignorePgk ignore Q.PkgPath = true ∨ pkgKey p Q ≠ pkgKey p P) :
    GoMap.lookup (buildImports ignore p (pre ++ P :: post)) (pkgKey p P)
        = some (importeesOf ignore p P)
    ∧ GoMap.lookup (loadPkg ignore p m P) (pkgKey p P) = some (importeesOf ignore p P)
    ∧ GoMap.lookup (loadPkg ignore p m P) (pkgKey p P)
        = GoMap.lookup (loadPkg ignore p [] P) (pkgKey p P)
    ∧ ((GoMap.lookup (importeesOf ignore p P) e).isSome = true ↔
        ∃ is ∈ P.Syntax.flatten,
          ignorePgk ignore (strings.ReplaceAll is.Path.Value "\"" "") = false
          ∧ strings.Contains is.Path.Value P.Module.Path = true
          ∧ strings.ReplaceAll (strings.ReplaceAll is.Path.Value "\"" "") p "" = e)
    ∧ ((¬ ∃ is ∈ P.Syntax.flatten,
          ignorePgk ignore (strings.ReplaceAll is.Path.Value "\"" "") = false
          ∧ strings.Contains is.Path.Value P.Module.Path = true
          ∧ strings.ReplaceAll (strings.ReplaceAll is.Path.Value "\"" "") p "" = e) →
        hasEdge (buildImports ignore p (pre ++ P :: post)) (pkgKey p P) e = false) := by
  have hlast := lookup_buildImports_last ignore p pre post P hP hpost
  have hload : ∀ m0, GoMap.lookup (loadPkg ignore p m0 P) (pkgKey p P)
      = some (importeesOf ignore p P) := by
    intro m0
    rw [loadPkg_eq, hP]
    simp [GoMap.lookup_assign]
  have hiff : (GoMap.lookup (importeesOf ignore p P) e).isSome = true ↔
      ∃ is ∈ P.Syntax.flatten,
        ignorePgk ignore (strings.ReplaceAll is.Path.Value "\"" "") = false
        ∧ strings.Contains is.Path.Value P.Module.Path = true
        ∧ strings.ReplaceAll (strings.ReplaceAll is.Path.Value "\"" "") p "" = e := by
    rw [mem_keys_importeesOf]
    constructor
    · rintro ⟨is, his, hsv, hkey⟩
      have := (survives_eq_true_iff _ _ _).1 hsv
      exact ⟨is, his, this.1, this.2, hkey⟩
    · rintro ⟨is, his, h1, h2, hkey⟩
      exact ⟨is, his, (survives_eq_true_iff _ _ _).2 ⟨h1, h2⟩, hkey⟩
  refine ⟨hlast, hload m, (hload m).trans (hload []).symm, hiff, ?_⟩
  intro hno
  unfold hasEdge
  rw [hlast]
  simp only
  cases hc : (GoMap.lookup (importeesOf ignore p P) e).isSome with
  | false => rfl
  | true => exact absurd (hiff.1 hc) hno

theorem collision_last_package_wins_witness :
    ignorePgk [""] "example.com/app/a" = false
    ∧ pkgKey "internal/" (samplePkg "example.com/app/internal/a" ["\"example.com/app/b\""])
        = pkgKey "internal/" (samplePkg "example.com/app/a" [])
    ∧ GoMap.lookup (buildImports [""] "internal/"
          ([samplePkg "example.com/app/internal/a" ["\"example.com/app/b\""]]
            ++ samplePkg "example.com/app/a" [] :: [samplePkg "example.com/app/b" []]))
        (pkgKey "internal/" (samplePkg "example.com/app/a" []))
      = some (importeesOf [""] "internal/" (samplePkg "example.com/app/a" []))
    ∧ importeesOf [""] "internal/" (samplePkg "example.com/app/a" []) = [] :=
  ⟨by decide, by decide,
    (collision_last_package_wins [""] "internal/"
      [samplePkg "example.com/app/internal/a" ["\"example.com/app/b\""]]
      [samplePkg "example.com/app/b" []] (samplePkg "example.com/app/a" []) []
      "example.com/app/b" (by decide) (by decide)).1,
    by decide⟩

/-- C20: after any sequence of `Key` calls from `NewLetters` the number of entries
of `Keys` is `current - 64`.  A call with a node key that was not requested before
advances `current` by one, appends the one entry (key, returned label) to `Keys`
and keeps the label of every key that had one; the invariant holds again. -/
theorem letters_invariant (vals : List String) (val : String) (hval : val ∉ vals) :
    ((Letters.keyCalls NewLetters vals).2.Keys.length : Int)
        = (Letters.keyCalls NewLetters vals).2.current - 64
    ∧ ((Letters.keyCalls NewLetters vals).2.Key val).2.current
        = (Letters.keyCalls NewLetters vals).2.current + 1
    ∧ ((Letters.keyCalls NewLetters vals).2.Key val).2.Keys
        = (Letters.keyCalls NewLetters vals).2.Keys
          ++ [(val, ((Letters.keyCalls NewLetters vals).2.Key val).1)]
    ∧ (∀ k lab, GoMap.lookup (Letters.keyCalls NewLetters vals).2.Keys k = some lab →
        GoMap.lookup ((Letters.keyCalls NewLetters vals).2.Key val).2.Keys k = some lab)
    ∧ (((Letters.keyCalls NewLetters vals).2.Key val).2.Keys.length : Int)
        = ((Letters.keyCalls NewLetters vals).2.Key val).2.current - 64 := by
  have hwf := Letters.WF_keyCalls Letters.WF_NewLetters vals
  have hwf2 := Letters.WF_Key hwf val
  have hn : GoMap.lookup (Letters.keyCalls NewLetters vals).2.Keys val = none := by
    rw [GoMap.lookup_eq_none_iff, Letters.mem_keys_keyCalls]
    simp [NewLetters, hval]
  refine ⟨?_, ?_, ?_, ?_, ?_⟩
  · rw [hwf.current_eq]
    ring
  · rw [Letters.Key_of_lookup_none hn]
  · rw [Letters.Key_keys_of_lookup_none hn, Letters.Key_of_lookup_none hn]
  · intro k lab h
    exact Letters.lookup_Key_mono h val
  · rw [hwf2.current_eq]
    ring

theorem letters_invariant_witness :
    "example.com/app/c" ∉ ["example.com/app/a", "example.com/app/b", "example.com/app/a"]
    ∧ (Letters.keyCalls NewLetters
        ["example.com/app/a", "example.com/app/b", "example.com/app/a"]).2
      = { current := 66, Keys := [("example.com/app/a", "A"), ("example.com/app/b", "B")] }
    ∧ ((Letters.keyCalls NewLetters
          ["example.com/app/a", "example.com/app/b", "example.com/app/a"]).2.Key
          "example.com/app/c").2.current
      = (Letters.keyCalls NewLetters
          ["example.com/app/a", "example.com/app/b", "example.com/app/a"]).2.current + 1 :=
  ⟨by decide, by decide,
    (letters_invariant ["example.com/app/a", "example.com/app/b", "example.com/app/a"]
      "example.com/app/c" (by decide)).2.1⟩

end DependencyViz
